import Mathlib

/-!
A verification development for an audio-fingerprinting system
(landmark-pair hashing in the style of Wang/Shazam): a signal front-end
(`spectrogram` / `amplitude_to_db`), a peak extractor (`local_maxima`),
a landmark-pair hasher (`hash_pair`, `make_hash_from_audio`), a SQLite-style
index store (`add_song`, `add_hashes`, `delete_song`), a build orchestrator
(`build_fingerprint_db_from_json`) and two matchers (`match_snippet`,
`match_hashes_sqlite`).

Modelling conventions.
* Python `dict` / `defaultdict` is modelled by association lists with the
  same insertion-order semantics: an update to an existing key keeps its
  position, a new key is appended at the end, and iteration follows that
  order (this order is observable through `max` tie-breaking and the stable
  sort, so it is modelled exactly).
* Python `list.sort` / `max` are modelled by a stable insertion sort and a
  first-maximum fold, matching CPython's documented behaviour.
* Hash keys are opaque bucketing keys: the matchers are stated over an
  arbitrary key type `K` with decidable equality, standing for the hex
  digest strings of the pickle index and for the 16-byte blobs of the
  SQLite table (`bytes.fromhex` is a bijection between canonical lowercase
  32-char hex digests and 16-byte blobs, so both instantiate the same `K`).
* numpy float64 spectrogram cells are idealised as `WithBot ℝ``; ⊥ stands
  for the IEEE value −∞.  `librosa.amplitude_to_db` (with its default
  `amin = 1e-5`, `top_db = 80`) is modelled over ℝ; the STFT itself is an
  external DSP collaborator, so the signal front-end is quantified over the
  (nonnegative) magnitude matrix the STFT produced.
* machine integers are ℤ / ℕ (Python ints are unbounded, so no wrap-around
  is modelled); 32-bit words inside MD5 are ℕ with explicit `% 2 ^ 32`.
-/

/-! ## Matcher core (src/audio_hasher.py `match_snippet`,
    src/recognize_snippet.py `match_hashes_sqlite`) -/

/-- `index[h]` of the pickle index dict: the postings list of hash `h`,
`[]` when the key is absent (the source `continue`s on a missing key). -/
def lookupIdx {K : Type} [DecidableEq K] (idx : List (K × List (ℤ × ℤ))) (h : K) :
    List (ℤ × ℤ) :=
  ((idx.find? (fun e => decide (e.1 = h))).map (fun e => e.2)).getD []

/-- `SELECT song_id, t_song FROM hashes WHERE hash = ?` over the `hashes`
table, rows kept in table order. -/
def rowsFor {K : Type} [DecidableEq K] (tbl : List (K × ℤ × ℤ)) (h : K) :
    List (ℤ × ℤ) :=
  (tbl.filter (fun r => decide (r.1 = h))).map (fun r => r.2)

/-- One `defaultdict(list)[k].append(b)` step on an insertion-ordered
association list: an existing key keeps its position, a new key is
appended. -/
def addG {K β : Type} [DecidableEq K] : List (K × List β) → K → β → List (K × List β)
  | [], k, b => [(k, [b])]
  | e :: rest, k, b =>
    if e.1 = k then (e.1, e.2 ++ [b]) :: rest else e :: addG rest k b

/-- `by_hash` of `match_hashes_sqlite`: group the query pairs by hash key,
keys in first-occurrence order, query times appended in order. -/
def groupQ {K : Type} [DecidableEq K] (hs : List (K × ℤ)) : List (K × List ℤ) :=
  hs.foldl (fun a p => addG a p.1 p.2) []

/-- The sequence of `(song_id, δ)` vote increments `match_snippet` performs,
in execution order: query pairs outer, postings inner, `δ = t_song − t_query`. -/
def snipStream {K : Type} [DecidableEq K] (hs : List (K × ℤ))
    (idx : List (K × List (ℤ × ℤ))) : List (ℤ × ℤ) :=
  hs.flatMap (fun p => (lookupIdx idx p.1).map (fun q => (q.1, q.2 - p.2)))

/-- The sequence of `(song_id, δ)` vote increments `match_hashes_sqlite`
performs, in execution order: distinct keys outer (first-occurrence order),
rows next, grouped query times inner. -/
def sqlStream {K : Type} [DecidableEq K] (hs : List (K × ℤ))
    (tbl : List (K × ℤ × ℤ)) : List (ℤ × ℤ) :=
  (groupQ hs).flatMap (fun g =>
    (rowsFor tbl g.1).flatMap (fun q => g.2.map (fun tq => (q.1, q.2 - tq))))

/-- `votes[song_id][delta] += 1`, inner dict: bump an offset's count, or
append the offset with count 1. -/
def bumpDelta : List (ℤ × ℕ) → ℤ → List (ℤ × ℕ)
  | [], d => [(d, 1)]
  | e :: rest, d => if e.1 = d then (e.1, e.2 + 1) :: rest else e :: bumpDelta rest d

/-- `votes[song_id][delta] += 1`, outer dict. -/
def bumpVotes : List (ℤ × List (ℤ × ℕ)) → ℤ → ℤ → List (ℤ × List (ℤ × ℕ))
  | [], s, d => [(s, [(d, 1)])]
  | e :: rest, s, d =>
    if e.1 = s then (e.1, bumpDelta e.2 d) :: rest else e :: bumpVotes rest s d

/-- The nested `votes` accumulator after performing a stream of
`(song_id, δ)` increments. -/
def buildVotes (l : List (ℤ × ℤ)) : List (ℤ × List (ℤ × ℕ)) :=
  l.foldl (fun v p => bumpVotes v p.1 p.2) []

/-- Python `max(offs.items(), key=lambda x: x[1])`: the first pair attaining
the maximal count, in dict insertion order (ties keep the earlier pair). -/
def maxPair : List (ℤ × ℕ) → ℤ × ℕ
  | [] => (0, 0)
  | x :: xs => xs.foldl (fun b p => if b.2 < p.2 then p else b) x

/-- `sum(offs.values())`. -/
def totalOf (m : List (ℤ × ℕ)) : ℕ := (m.map (fun e => e.2)).sum

/-- The `scored` list: one `(song_id, count, best_delta, total_hits)` tuple
per song, in vote-dict insertion order. -/
def scoredOf (v : List (ℤ × List (ℤ × ℕ))) : List (ℤ × ℕ × ℤ × ℕ) :=
  v.map (fun e => (e.1, (maxPair e.2).2, (maxPair e.2).1, totalOf e.2))

/-- Stable insertion step for `scored.sort(key=lambda x: x[1], reverse=True)`:
an element moves past another only when that other has a strictly smaller
count, so equal counts keep their original relative order. -/
def insertScored (x : ℤ × ℕ × ℤ × ℕ) : List (ℤ × ℕ × ℤ × ℕ) → List (ℤ × ℕ × ℤ × ℕ)
  | [] => [x]
  | y :: ys => if x.2.1 < y.2.1 then y :: insertScored x ys else x :: y :: ys

/-- `scored.sort(key=lambda x: x[1], reverse=True)`: stable sort by vote
count, descending. -/
def sortScored (l : List (ℤ × ℕ × ℤ × ℕ)) : List (ℤ × ℕ × ℤ × ℕ) :=
  l.foldr insertScored []

/-- `match_snippet` (src/audio_hasher.py, lines 161–183), from the query's
hash list on: join against the pickle index, vote, score, stable-sort by
count descending, return `scored[:1]`. -/
def match_snippet {K : Type} [DecidableEq K] (hashes : List (K × ℤ))
    (idx : List (K × List (ℤ × ℤ))) : List (ℤ × ℕ × ℤ × ℕ) :=
  if hashes = [] then []
  else (sortScored (scoredOf (buildVotes (snipStream hashes idx)))).take 1

/-- The `scored` list of `match_hashes_sqlite` after its sort (lines 72–77
of src/recognize_snippet.py). -/
def sqliteScored {K : Type} [DecidableEq K] (hashes : List (K × ℤ))
    (tbl : List (K × ℤ × ℤ)) : List (ℤ × ℕ × ℤ × ℕ) :=
  sortScored (scoredOf (buildVotes (sqlStream hashes tbl)))

/-- `load_meta(conn).get(song_id, ("?", "?"))`: the dict comprehension keeps
the last row per song_id, and a missing song yields `("?", "?")`. -/
def metaGet (songs : List (ℤ × String × String)) (sid : ℤ) : String × String :=
  ((songs.reverse.find? (fun r => decide (r.1 = sid))).map (fun r => r.2)).getD ("?", "?")

/-- `match_hashes_sqlite` (src/recognize_snippet.py, lines 50–85), from the
query's hash list on: the ranked `scored[:topk]` decorated with song
metadata, `(artist, title, votes, offset, total_hits)`. -/
def match_hashes_sqlite {K : Type} [DecidableEq K] (hashes : List (K × ℤ))
    (tbl : List (K × ℤ × ℤ)) (songs : List (ℤ × String × String)) (topk : ℕ) :
    List (String × String × ℕ × ℤ × ℕ) :=
  if hashes = [] then []
  else ((sqliteScored hashes tbl).take topk).map
    (fun x => ((metaGet songs x.1).1, (metaGet songs x.1).2, x.2.1, x.2.2.1, x.2.2.2))

/-! ## MD5 (`hashlib.md5`) and hex encoding

`hash_pair` derives keys with `hashlib.md5(raw).hexdigest()`; the store
converts them back with `bytes.fromhex`.  MD5 is embedded in full (RFC 1321),
32-bit words as ℕ reduced `% 2 ^ 32`, bytes as ℕ `< 256`. -/

def M32 : ℕ := 4294967296

/-- 32-bit left rotation: low part `(x << s) % 2^32` plus the wrapped-around
high part `x >> (32 − s)`. -/
def rotl32 (x s : ℕ) : ℕ := (x % M32) / 2 ^ (32 - s) + ((x % M32) * 2 ^ s) % M32

/-- 32-bit bitwise complement. -/
def bnot32 (x : ℕ) : ℕ := (M32 - 1) ^^^ (x % M32)

/-- The round functions F, G, H, I of MD5, selected by the step index. -/
def mdF (i b c d : ℕ) : ℕ :=
  if i < 16 then (b &&& c) ||| (bnot32 b &&& d)
  else if i < 32 then (d &&& b) ||| (bnot32 d &&& c)
  else if i < 48 then b ^^^ c ^^^ d
  else c ^^^ (b ||| bnot32 d)

/-- The message-word schedule of MD5. -/
def mdG (i : ℕ) : ℕ :=
  if i < 16 then i
  else if i < 32 then (5 * i + 1) % 16
  else if i < 48 then (3 * i + 5) % 16
  else (7 * i) % 16

/-- The per-step rotation amounts of MD5. -/
def mdS : List ℕ :=
  [7, 12, 17, 22, 7, 12, 17, 22, 7, 12, 17, 22, 7, 12, 17, 22,
   5, 9, 14, 20, 5, 9, 14, 20, 5, 9, 14, 20, 5, 9, 14, 20,
   4, 11, 16, 23, 4, 11, 16, 23, 4, 11, 16, 23, 4, 11, 16, 23,
   6, 10, 15, 21, 6, 10, 15, 21, 6, 10, 15, 21, 6, 10, 15, 21]

/-- The sine-derived additive constants of MD5. -/
def mdK : List ℕ :=
  [0xd76aa478, 0xe8c7b756, 0x242070db, 0xc1bdceee,
   0xf57c0faf, 0x4787c62a, 0xa8304613, 0xfd469501,
   0x698098d8, 0x8b44f7af, 0xffff5bb1, 0x895cd7be,
   0x6b901122, 0xfd987193, 0xa679438e, 0x49b40821,
   0xf61e2562, 0xc040b340, 0x265e5a51, 0xe9b6c7aa,
   0xd62f105d, 0x02441453, 0xd8a1e681, 0xe7d3fbc8,
   0x21e1cde6, 0xc33707d6, 0xf4d50d87, 0x455a14ed,
   0xa9e3e905, 0xfcefa3f8, 0x676f02d9, 0x8d2a4c8a,
   0xfffa3942, 0x8771f681, 0x6d9d6122, 0xfde5380c,
   0xa4beea44, 0x4bdecfa9, 0xf6bb4b60, 0xbebfbc70,
   0x289b7ec6, 0xeaa127fa, 0xd4ef3085, 0x04881d05,
   0xd9d4d039, 0xe6db99e5, 0x1fa27cf8, 0xc4ac5665,
   0xf4292244, 0x432aff97, 0xab9423a7, 0xfc93a039,
   0x655b59c3, 0x8f0ccc92, 0xffeff47d, 0x85845dd1,
   0x6fa87e4f, 0xfe2ce6e0, 0xa3014314, 0x4e0811a1,
   0xf7537e82, 0xbd3af235, 0x2ad7d2bb, 0xeb86d391]

/-- Little-endian 32-bit word at index `j` of a 64-byte block. -/
def wordAt (block : List ℕ) (j : ℕ) : ℕ :=
  block.getD (4 * j) 0 + 256 * block.getD (4 * j + 1) 0 +
    65536 * block.getD (4 * j + 2) 0 + 16777216 * block.getD (4 * j + 3) 0

/-- One of the 64 MD5 steps on the running `(a, b, c, d)` state. -/
def md5Step (block : List ℕ) (st : ℕ × ℕ × ℕ × ℕ) (i : ℕ) : ℕ × ℕ × ℕ × ℕ :=
  let v := (mdF i st.2.1 st.2.2.1 st.2.2.2 + st.1 + mdK.getD i 0 +
    wordAt block (mdG i)) % M32
  (st.2.2.2, (st.2.1 + rotl32 v (mdS.getD i 0)) % M32, st.2.1, st.2.2.1)

/-- Process one 64-byte block: 64 steps, then add the block result into the
chaining state. -/
def md5Block (st : ℕ × ℕ × ℕ × ℕ) (block : List ℕ) : ℕ × ℕ × ℕ × ℕ :=
  let r := (List.range 64).foldl (md5Step block) st
  ((st.1 + r.1) % M32, (st.2.1 + r.2.1) % M32,
   (st.2.2.1 + r.2.2.1) % M32, (st.2.2.2 + r.2.2.2) % M32)

/-- Split a byte list into successive 64-byte chunks. -/
def chunks64 : List ℕ → List (List ℕ)
  | [] => []
  | x :: rest => (x :: rest).take 64 :: chunks64 ((x :: rest).drop 64)
termination_by l => l.length
decreasing_by simp only [List.length_drop, List.length_cons]; omega

/-- The 8 little-endian bytes of the 64-bit message bit length. -/
def lenBytes8 (n : ℕ) : List ℕ :=
  [n % 256, n / 2 ^ 8 % 256, n / 2 ^ 16 % 256, n / 2 ^ 24 % 256,
   n / 2 ^ 32 % 256, n / 2 ^ 40 % 256, n / 2 ^ 48 % 256, n / 2 ^ 56 % 256]

/-- MD5 padding: a 0x80 byte, zeros to 56 mod 64, then the bit length. -/
def md5Pad (msg : List ℕ) : List ℕ :=
  msg ++ 128 :: List.replicate ((119 - msg.length % 64) % 64) 0 ++
    lenBytes8 (8 * msg.length % 2 ^ 64)

/-- The 16-byte MD5 digest of a byte string. -/
def md5Bytes (msg : List ℕ) : List ℕ :=
  let st := (chunks64 (md5Pad msg)).foldl md5Block
    (0x67452301, 0xefcdab89, 0x98badcfe, 0x10325476)
  (fun w => [w % 256, w / 256 % 256, w / 65536 % 256, w / 16777216 % 256]) st.1 ++
    (fun w => [w % 256, w / 256 % 256, w / 65536 % 256, w / 16777216 % 256]) st.2.1 ++
    (fun w => [w % 256, w / 256 % 256, w / 65536 % 256, w / 16777216 % 256]) st.2.2.1 ++
    (fun w => [w % 256, w / 256 % 256, w / 65536 % 256, w / 16777216 % 256]) st.2.2.2

/-- The lowercase hex digit for `n < 16`, as `"%x"` formatting uses:
`'0'`–`'9'` for 0–9 (codepoints 48–57) and `'a'`–`'f'` for 10–15
(codepoints 97–102). -/
def hexDigitChar (n : ℕ) : Char :=
  if n < 10 then Char.ofNat (48 + n) else Char.ofNat (87 + n)

/-- The two hex characters of one byte. -/
def byteToHex (b : ℕ) : List Char := [hexDigitChar (b / 16), hexDigitChar (b % 16)]

/-- Lowercase hex string of a byte list (`hexdigest` formatting). -/
def toHexStr (bs : List ℕ) : String := String.mk (bs.flatMap byteToHex)

/-- `hexdigest()` of MD5. -/
def md5Hex (msg : List ℕ) : String := toHexStr (md5Bytes msg)

/-- `.encode()` of an ASCII string: its code points as bytes. -/
def strBytes (s : String) : List ℕ := s.data.map Char.toNat

/-- `hash_pair` (src/audio_hasher.py, lines 80–83):
`hashlib.md5(f"{f1}|{f2}|{dt}".encode()).hexdigest()`. -/
def hash_pair (f1 f2 dt : ℕ) : String :=
  md5Hex (strBytes (toString f1 ++ "|" ++ toString f2 ++ "|" ++ toString dt))

/-- The numeric value of one hex character, `none` when invalid
(`bytes.fromhex` accepts both cases and raises otherwise). -/
def hexVal (c : Char) : Option ℕ :=
  if c = '0' then some 0 else if c = '1' then some 1
  else if c = '2' then some 2 else if c = '3' then some 3
  else if c = '4' then some 4 else if c = '5' then some 5
  else if c = '6' then some 6 else if c = '7' then some 7
  else if c = '8' then some 8 else if c = '9' then some 9
  else if c = 'a' ∨ c = 'A' then some 10 else if c = 'b' ∨ c = 'B' then some 11
  else if c = 'c' ∨ c = 'C' then some 12 else if c = 'd' ∨ c = 'D' then some 13
  else if c = 'e' ∨ c = 'E' then some 14 else if c = 'f' ∨ c = 'F' then some 15
  else none

/-- Parse hex characters two at a time into bytes; `none` on an odd length
or an invalid digit. -/
def hexPairsToBytes : List Char → Option (List ℕ)
  | [] => some []
  | [_] => none
  | c1 :: c2 :: rest =>
    match hexVal c1, hexVal c2 with
    | some h, some l => (hexPairsToBytes rest).map (fun bs => (16 * h + l) :: bs)
    | _, _ => none

/-- `bytes.fromhex`: the raw bytes of a hex string, `none` when Python
would raise `ValueError`. -/
def bytesFromHex (s : String) : Option (List ℕ) := hexPairsToBytes s.data

/-! ## Index store (src/index_db.py, src/build_from_full_manifest.py) -/

/-- The two tables of the SQLite store: `songs(song_id, artist, title)` and
`hashes(hash BLOB, song_id, t_song)`, rows in insertion order. -/
structure Store where
  songs : List (ℤ × String × String)
  hashes : List (List ℕ × ℤ × ℤ)
deriving DecidableEq

/-- `add_song`: `INSERT OR REPLACE INTO songs` — a conflicting row is
removed and the new row inserted. -/
def add_song (st : Store) (sid : ℤ) (artist title : String) : Store :=
  { st with songs := st.songs.filter (fun r => decide (r.1 ≠ sid)) ++ [(sid, artist, title)] }

/-- The row list `[(bytes.fromhex(h), song_id, t) for h, t in hash_list]`,
`none` as soon as one key fails to parse. -/
def convRows (sid : ℤ) : List (String × ℤ) → Option (List (List ℕ × ℤ × ℤ))
  | [] => some []
  | p :: rest =>
    match bytesFromHex p.1 with
    | some b => (convRows sid rest).map (fun rs => (b, sid, p.2) :: rs)
    | none => none

/-- `add_hashes` (src/index_db.py, lines 19–21): bulk-insert the converted
rows, `none` when `bytes.fromhex` raises. -/
def add_hashes (st : Store) (sid : ℤ) (hl : List (String × ℤ)) : Option Store :=
  (convRows sid hl).map (fun rows => { st with hashes := st.hashes ++ rows })

/-- `song_exists`: `SELECT 1 FROM songs WHERE song_id = ?` is nonempty. -/
def song_exists (st : Store) (sid : ℤ) : Bool :=
  st.songs.any (fun r => decide (r.1 = sid))

/-- `delete_song` (src/build_from_full_manifest.py, lines 166–170):
`DELETE FROM hashes WHERE song_id = ?` then `DELETE FROM songs ...`. -/
def delete_song (st : Store) (sid : ℤ) : Store :=
  ⟨st.songs.filter (fun r => decide (r.1 ≠ sid)),
   st.hashes.filter (fun r => decide (r.2.1 ≠ sid))⟩

/-! ## Build orchestration (src/build_from_full_manifest.py, lines 173–206)

Audio acquisition (`read_full_track_pcm`) and fingerprinting are external
to the build loop; each manifest item therefore carries the outcome its
collaborators produce: `fetch` is the hash list (or the acquisition /
decode error), `storeOk` records whether the backend accepts this item's
`add_song` / `add_hashes` / `commit`.  A failed item leaves its uncommitted
transaction behind, modelled as the store unchanged. -/

structure BuildItem where
  sid : ℤ
  artist : String
  title : String
  fetch : Except String (List (String × ℤ))
  storeOk : Bool

/-- One iteration of the build loop over a manifest item: skip when the
song exists; the `try` block runs acquisition, hashing and the store
writes, and `except Exception: continue` catches every failure inside it. -/
def processItem (st : Store) (it : BuildItem) : Store :=
  if song_exists st it.sid then st
  else
    match it.fetch with
    | Except.error _ => st
    | Except.ok hl =>
      if hl = [] then st
      else if it.storeOk then
        match add_hashes (add_song st it.sid it.artist it.title) it.sid hl with
        | some st' => st'
        | none => st
      else st

/-- `build_fingerprint_db_from_json`, from the normalized manifest on: fold
the per-item loop over the items. -/
def build_fingerprint_db_from_json (st : Store) (items : List BuildItem) : Store :=
  items.foldl processItem st

/-- The song ids present in the `songs` table. -/
def songIds (st : Store) : List ℤ := st.songs.map (fun r => r.1)

/-! ## Signal front-end (src/audio_hasher.py, lines 25–37)

`spectrogram` downmixes, resamples and takes `np.abs(librosa.stft(...))` —
external DSP collaborators; the front-end modelled here is everything the
source adds on top: `librosa.amplitude_to_db(spec, ref=np.max)` with
librosa's defaults `amin = 1e-5`, `top_db = 80.0`:
`db(m) = 10·log10(max(amin², m²)) − 10·log10(max(amin², ref²))` with
`ref = np.max(spec)`, then floored at `db.max() − top_db`.  Claims about
"every audio input" are stated over every nonnegative magnitude matrix. -/

/-- `np.max` over a list of reals (the source only applies it to nonempty
arrays; `0` is a junk value for the impossible empty case). -/
noncomputable def listMaxR : List ℝ → ℝ
  | [] => 0
  | x :: xs => xs.foldl max x

/-- `amin ** 2` for librosa's default `amin = 1e-5`. -/
noncomputable def aminSq : ℝ := 1 / 10 ^ 10

/-- `10 * log10(maximum(amin², x)) - 10 * log10(maximum(amin², r))`:
one cell of `power_to_db` before the `top_db` floor, for power `x` and
reference power `r`. -/
noncomputable def dbOfPow (x r : ℝ) : ℝ :=
  10 * Real.logb 10 (max aminSq x) - 10 * Real.logb 10 (max aminSq r)

/-- `log_spec` of `power_to_db`: every cell in dB relative to the maximal
magnitude, before the `top_db` floor. -/
noncomputable def preDb (mags : List (List ℝ)) : List (List ℝ) :=
  mags.map (fun row => row.map (fun m => dbOfPow (m ^ 2) (listMaxR mags.flatten ^ 2)))

/-- `librosa.amplitude_to_db(mags, ref=np.max)` with default `amin`,
`top_db`: `np.maximum(log_spec, log_spec.max() - 80.0)`.  Cells are float64
values, idealised as `WithBot ℝ` (⊥ = −∞). -/
noncomputable def amplitude_to_db (mags : List (List ℝ)) : List (List (WithBot ℝ)) :=
  (preDb mags).map (fun row =>
    row.map (fun x => ((max x (listMaxR (preDb mags).flatten - 80) : ℝ) : WithBot ℝ)))

/-- `spectrogram` from the STFT magnitudes on: the dB conversion is all the
source adds beyond its external DSP calls. -/
noncomputable def spectrogram_db (mags : List (List ℝ)) : List (List (WithBot ℝ)) :=
  amplitude_to_db mags

/-! ## Peak extractor (src/audio_hasher.py, lines 43–74)

`local_maxima` is generic in the cell value type (a linear order with a
zero, instantiated at ℝ by the pipeline): `scipy.ndimage.maximum_filter`
with a full 16×16 footprint, `mode='constant'` and its default `cval=0.0`;
the background mask `spec == -inf` eroded with the 4-connected structuring
element and `border_value=1`; `argwhere` in row-major order; per-frame
grouping, stable sort by strength descending, top-16 kept; final stable
sort by time frame. -/

/-- The 16 per-axis window offsets of a size-16 `maximum_filter` footprint
(scipy places the origin at index `16 // 2 = 8`). -/
def offsets16 : List ℤ := (List.range 16).map (fun k => (k : ℤ) - 8)

/-- Cell `(i, j)` of the spectrogram under `mode='constant'`, `cval=0.0`:
out-of-bounds positions read as `0.0`. -/
def cellAt {α : Type} [Zero α] (S : List (List (WithBot α))) (i j : ℤ) : WithBot α :=
  if 0 ≤ i ∧ 0 ≤ j then (S.getD i.toNat []).getD j.toNat ((0 : α) : WithBot α)
  else ((0 : α) : WithBot α)

/-- Maximum of a list of extended values (`⊥` is the identity of `max`). -/
def listMaxB {α : Type} [LinearOrder α] (l : List (WithBot α)) : WithBot α :=
  l.foldl max ⊥

/-- One output cell of `maximum_filter(S, footprint=np.ones((16, 16)),
mode='constant')`. -/
def maxFilterAt {α : Type} [LinearOrder α] [Zero α] (S : List (List (WithBot α)))
    (f t : ℕ) : WithBot α :=
  listMaxB (offsets16.flatMap (fun df =>
    offsets16.map (fun dt => cellAt S ((f : ℤ) + df) ((t : ℤ) + dt))))

/-- The background mask `spec_in_dB == -np.inf` read at integer coordinates
with `border_value=1`: out-of-bounds counts as background. -/
def bgAt {α : Type} [Zero α] [DecidableEq α] (S : List (List (WithBot α)))
    (m n : ℕ) (i j : ℤ) : Bool :=
  if 0 ≤ i ∧ i < (m : ℤ) ∧ 0 ≤ j ∧ j < (n : ℤ) then
    decide ((S.getD i.toNat []).getD j.toNat ((0 : α) : WithBot α) = ⊥)
  else true

/-- `binary_erosion(spec == -inf, structure=generate_binary_structure(2, 1),
border_value=1)` at one cell: the 4-connected cross (centre included) must
lie entirely in the background mask. -/
def erodedAt {α : Type} [Zero α] [DecidableEq α] (S : List (List (WithBot α)))
    (m n : ℕ) (f t : ℕ) : Bool :=
  bgAt S m n (f : ℤ) (t : ℤ) && bgAt S m n ((f : ℤ) - 1) (t : ℤ) &&
    bgAt S m n ((f : ℤ) + 1) (t : ℤ) && bgAt S m n (f : ℤ) ((t : ℤ) - 1) &&
    bgAt S m n (f : ℤ) ((t : ℤ) + 1)

/-- `actual_peaks = (spec == maximum_filter) & ~eroded_background` at one
cell. -/
def isPeak {α : Type} [LinearOrder α] [Zero α] (S : List (List (WithBot α)))
    (m n : ℕ) (f t : ℕ) : Bool :=
  decide ((S.getD f []).getD t ((0 : α) : WithBot α) = maxFilterAt S f t) &&
    ! erodedAt S m n f t

/-- `np.argwhere(actual_peaks)`: the `(freq_bin, time_frame)` coordinates of
all accepted cells, in row-major order. -/
def peaksRaw {α : Type} [LinearOrder α] [Zero α] (S : List (List (WithBot α))) :
    List (ℕ × ℕ) :=
  (List.range S.length).flatMap (fun f =>
    (List.range (S.headD []).length).filterMap (fun t =>
      if isPeak S S.length (S.headD []).length f t then some (f, t) else none))

/-- `peak_by_time_frame`: peaks grouped by time frame into
`(freq_bin, dB value)` entries, keys in first-occurrence order. -/
def groupsOf {α : Type} [LinearOrder α] [Zero α] (S : List (List (WithBot α))) :
    List (ℕ × List (ℕ × WithBot α)) :=
  (peaksRaw S).foldl
    (fun g p => addG g p.2 (p.1, (S.getD p.1 []).getD p.2 ((0 : α) : WithBot α))) []

/-- Stable insertion step for `arr.sort(key=lambda x: x[1], reverse=True)`
on `(freq_bin, dB)` entries. -/
def insertValDesc {α : Type} [LinearOrder α] (x : ℕ × WithBot α) :
    List (ℕ × WithBot α) → List (ℕ × WithBot α)
  | [] => [x]
  | y :: ys => if x.2 < y.2 then y :: insertValDesc x ys else x :: y :: ys

/-- `arr.sort(key=lambda x: x[1], reverse=True)`: stable sort by dB value
descending. -/
def sortValDesc {α : Type} [LinearOrder α] (l : List (ℕ × WithBot α)) :
    List (ℕ × WithBot α) :=
  l.foldr insertValDesc []

/-- `TOP_PEAKS_PER_FRAME`. -/
def TOP_PEAKS_PER_FRAME : ℕ := 16

/-- The `kept` list: per frame, the strongest `TOP_PEAKS_PER_FRAME` peaks,
frames in first-occurrence order. -/
def keptOf {α : Type} [LinearOrder α] [Zero α] (S : List (List (WithBot α))) :
    List (ℕ × ℕ) :=
  (groupsOf S).flatMap (fun g =>
    ((sortValDesc g.2).take TOP_PEAKS_PER_FRAME).map (fun fa => (fa.1, g.1)))

/-- Stable insertion step for `kept.sort(key=lambda x: x[1])` on
`(freq_bin, time_frame)` pairs. -/
def insertTimeAsc (x : ℕ × ℕ) : List (ℕ × ℕ) → List (ℕ × ℕ)
  | [] => [x]
  | y :: ys => if y.2 < x.2 then y :: insertTimeAsc x ys else x :: y :: ys

/-- `kept.sort(key=lambda x: x[1])`: stable sort by time frame ascending. -/
def sortTimeAsc (l : List (ℕ × ℕ)) : List (ℕ × ℕ) :=
  l.foldr insertTimeAsc []

/-- `local_maxima` (src/audio_hasher.py, lines 43–74): the time-ordered
`(freq_bin, time_frame)` peak list of a dB spectrogram. -/
def local_maxima {α : Type} [LinearOrder α] [Zero α] (S : List (List (WithBot α))) :
    List (ℕ × ℕ) :=
  sortTimeAsc (keptOf S)

/-! ## Landmark-pair hasher (src/audio_hasher.py, lines 89–116) -/

/-- `TARGET_ZONE_T_FRAMES`. -/
def TARGET_ZONE_T_FRAMES : ℕ × ℕ := (2, 64)

/-- `TARGET_ZONE_F_BINS`. -/
def TARGET_ZONE_F_BINS : ℕ := 48

/-- `HASH_FANOUT`. -/
def HASH_FANOUT : ℕ := 8

/-- The inner `while` loop of `make_hash_from_audio` for one anchor
`(f1, t1)`: walk the later peaks while `t2 ≤ t1 + 64`, emit a pair when
`t1 + 2 ≤ t2` and `|f2 − f1| ≤ 48`, and stop once `budget` pairs
(`HASH_FANOUT` initially) are emitted. -/
def emitFor (f1 t1 : ℕ) : ℕ → List (ℕ × ℕ) → List ((ℕ × ℕ) × (ℕ × ℕ))
  | _, [] => []
  | budget, p :: rest =>
    if t1 + TARGET_ZONE_T_FRAMES.2 < p.2 then []
    else if t1 + TARGET_ZONE_T_FRAMES.1 ≤ p.2 ∧
        ((p.1 : ℤ) - (f1 : ℤ)).natAbs ≤ TARGET_ZONE_F_BINS then
      ((f1, t1), p) :: (if budget ≤ 1 then [] else emitFor f1 t1 (budget - 1) rest)
    else emitFor f1 t1 budget rest

/-- The anchor/target pairs `make_hash_from_audio` emits from a time-sorted
peak list: every peak anchors a scan of its successors. -/
def makePairs : List (ℕ × ℕ) → List ((ℕ × ℕ) × (ℕ × ℕ))
  | [] => []
  | p :: rest => emitFor p.1 p.2 HASH_FANOUT rest ++ makePairs rest

/-- The anchor/target pairs `make_hash_from_audio` emits for the audio whose
STFT magnitude matrix is `mags`. -/
noncomputable def hashPairsOf (mags : List (List ℝ)) : List ((ℕ × ℕ) × (ℕ × ℕ)) :=
  makePairs (local_maxima (spectrogram_db mags))

/-- `make_hash_from_audio` (src/audio_hasher.py, lines 89–116), over the
audio's STFT magnitude matrix: `(hash_pair(f1, f2, t2 - t1), t1)` for every
emitted pair. -/
noncomputable def make_hash_from_audio (mags : List (List ℝ)) : List (String × ℕ) :=
  (hashPairsOf mags).map (fun pr => (hash_pair pr.1.1 pr.2.1 (pr.2.2 - pr.1.2), pr.1.2))

/-- The all-zero STFT magnitude matrix (`m` frequency bins, `n` frames):
the magnitudes of entirely silent audio, `|STFT(0)| = 0`. -/
def zeroMags (m n : ℕ) : List (List ℝ) := List.replicate m (List.replicate n 0)

/-! ## Proof infrastructure definitions

Insertion-ordered dictionaries are analysed through `dedupF` (the key list
in first-occurrence order) and a generic closed form for folds of
`defaultdict`-style updates. -/

/-- First-occurrence deduplication: keep each element's first occurrence,
in order — the key iteration order of a Python dict built by repeated
updates. -/
def dedupF {α : Type} [DecidableEq α] : List α → List α
  | [] => []
  | x :: xs => x :: dedupF (xs.filter (fun y => decide (y ≠ x)))
termination_by l => l.length
decreasing_by
  exact Nat.lt_succ_of_le (List.length_filter_le _ _)

/-- Generic `defaultdict` update: apply `g` to the (first) entry of key `k`,
keeping its position, or append `(k, g dflt)`. -/
def updAssoc {K β : Type} [DecidableEq K] (dflt : β) (g : β → β) :
    List (K × β) → K → List (K × β)
  | [], k => [(k, g dflt)]
  | e :: r, k => if e.1 = k then (e.1, g e.2) :: r else e :: updAssoc dflt g r k

/-- Fold a stream of keyed values into a `defaultdict`. -/
def foldAssoc {K γ β : Type} [DecidableEq K] (dflt : β) (g : β → γ → β)
    (l : List (K × γ)) : List (K × β) :=
  l.foldl (fun acc p => updAssoc dflt (fun v => g v p.2) acc p.1) []

/-- The projection of a `scored` tuple that drops `best_delta`:
`(song_id, count, total_hits)`. -/
def projTop (x : ℤ × ℕ × ℤ × ℕ) : ℤ × ℕ × ℕ := (x.1, x.2.1, x.2.2.2)

/-- The adjacent-pair ordering C1 claims for the decorated results of
`match_hashes_sqlite` (`(artist, title, votes, offset, total_hits)`):
votes descending, ties broken by total hits descending (the final
smallest-song_id tiebreak cannot fail when the first two compare equal, so
it weakens to `true` here and this predicate is a consequence of the
claimed ordering). -/
def claimPairOK (a b : String × String × ℕ × ℤ × ℕ) : Bool :=
  decide (b.2.2.1 < a.2.2.1) ||
    (decide (a.2.2.1 = b.2.2.1) &&
      (decide (b.2.2.2.2 < a.2.2.2.2) || decide (a.2.2.2.2 = b.2.2.2.2)))

/-- `claimPairOK` down a whole result list. -/
def claimSorted : List (String × String × ℕ × ℤ × ℕ) → Bool
  | [] => true
  | [_] => true
  | a :: b :: r => claimPairOK a b && claimSorted (b :: r)

/-! ## General lemmas on the stable sorts -/

theorem insertScored_head (x : ℤ × ℕ × ℤ × ℕ) (l : List (ℤ × ℕ × ℤ × ℕ)) :
    (insertScored x l).head? = some x ∨ (insertScored x l).head? = l.head? := by
  cases l with
  | nil => left; rfl
  | cons y ys =>
    by_cases h : x.2.1 < y.2.1 <;> simp [insertScored, h]

theorem chain'_insertScored (x : ℤ × ℕ × ℤ × ℕ) (l : List (ℤ × ℕ × ℤ × ℕ))
    (h : List.Chain' (fun a b => b.2.1 ≤ a.2.1) l) :
    List.Chain' (fun a b => b.2.1 ≤ a.2.1) (insertScored x l) := by
  induction l with
  | nil => simp [insertScored]
  | cons y ys ih =>
    by_cases hxy : x.2.1 < y.2.1
    · have hys : List.Chain' (fun a b => b.2.1 ≤ a.2.1) ys := h.tail
      have hins := ih hys
      simp only [insertScored, if_pos hxy]
      rw [List.chain'_cons']
      refine ⟨?_, hins⟩
      intro z hz
      rcases insertScored_head x ys with hh | hh
      · rw [hh] at hz
        simp_all
        omega
      · rw [hh] at hz
        rcases ys with _ | ⟨w, ws⟩
        · simp at hz
        · simp at hz
          subst hz
          exact (List.chain'_cons.mp h).1
    · simp only [insertScored, if_neg hxy]
      rw [List.chain'_cons]
      exact ⟨by omega, h⟩

theorem chain'_sortScored (l : List (ℤ × ℕ × ℤ × ℕ)) :
    List.Chain' (fun a b => b.2.1 ≤ a.2.1) (sortScored l) := by
  induction l with
  | nil => simp [sortScored]
  | cons x xs ih => exact chain'_insertScored x (sortScored xs) ih

theorem chain'_take_one {α : Type} (R : α → α → Prop) (l : List α) :
    List.Chain' R (l.take 1) := by
  cases l with
  | nil => simp
  | cons x xs => simp

theorem chain'_take (R : ℤ × ℕ × ℤ × ℕ → ℤ × ℕ × ℤ × ℕ → Prop)
    (l : List (ℤ × ℕ × ℤ × ℕ)) (n : ℕ) (h : List.Chain' R l) :
    List.Chain' R (l.take n) :=
  h.prefix (List.take_prefix n l)

/-- **C1 (amended)**: in both matchers (`match_snippet` and
`match_hashes_sqlite`), for every query hash list and every index contents,
the returned candidate list is sorted by vote count descending — and by
vote count only: no tiebreak by `total_hits` or `song_id` is applied, ties
keep the vote accumulator's insertion order. -/
theorem matchers_sorted_by_votes {K : Type} [DecidableEq K]
    (hashes : List (K × ℤ)) (idx : List (K × List (ℤ × ℤ)))
    (tbl : List (K × ℤ × ℤ)) (songs : List (ℤ × String × String)) (topk : ℕ) :
    List.Chain' (fun a b => b.2.1 ≤ a.2.1) (match_snippet hashes idx) ∧
    List.Chain' (fun a b => b.2.2.1 ≤ a.2.2.1)
      (match_hashes_sqlite hashes tbl songs topk) := by
  constructor
  · unfold match_snippet
    by_cases h : hashes = []
    · simp [h]
    · simp only [if_neg h]
      exact chain'_take_one _ _
  · unfold match_hashes_sqlite
    by_cases h : hashes = []
    · simp [h]
    · simp only [if_neg h]
      rw [List.chain'_map]
      exact chain'_take _ _ topk (chain'_sortScored _)

/-- **C1 (counterexample)**: `match_hashes_sqlite` on a two-key query whose
two candidate songs tie at one vote returns the song with the *smaller*
total-hits count first (accumulator insertion order), violating the claimed
`total_hits`-descending tiebreak; `claimSorted` is the adjacent-pair
consequence of the claimed ordering. -/
theorem match_hashes_sqlite_tie_breaks_claim :
    match_hashes_sqlite [((0 : ℕ), (0 : ℤ)), (1, 0)]
        [(0, ((5 : ℤ), (3 : ℤ))), (1, (3, 4)), (1, (3, 9))] [] 2 =
      [("?", "?", 1, 3, 1), ("?", "?", 1, 4, 2)] ∧
    claimSorted (match_hashes_sqlite [((0 : ℕ), (0 : ℤ)), (1, 0)]
        [(0, ((5 : ℤ), (3 : ℤ))), (1, (3, 4)), (1, (3, 9))] [] 2) = false := by
  constructor
  · decide
  · decide

/-! ## C8: `delete_song` -/

/-- **C8**: `delete_song sid` removes every `songs` row and every `hashes`
row whose `song_id` is `sid`, and leaves every row of another `song_id`
untouched (its multiplicity is preserved). -/
theorem delete_song_removes_exactly (st : Store) (sid : ℤ) :
    (∀ r ∈ (delete_song st sid).songs, r.1 ≠ sid) ∧
    (∀ r ∈ (delete_song st sid).hashes, r.2.1 ≠ sid) ∧
    (∀ r, r.1 ≠ sid → (delete_song st sid).songs.count r = st.songs.count r) ∧
    (∀ r, r.2.1 ≠ sid → (delete_song st sid).hashes.count r = st.hashes.count r) := by
  refine ⟨?_, ?_, ?_, ?_⟩
  · intro r hr
    simp [delete_song, List.mem_filter] at hr
    exact hr.2
  · intro r hr
    simp [delete_song, List.mem_filter] at hr
    exact hr.2
  · intro r hr
    simp only [delete_song]
    exact List.count_filter (by simpa using hr)
  · intro r hr
    simp only [delete_song]
    exact List.count_filter (by simpa using hr)

/-! ## C10: missing song metadata -/

/-- **C10**: a ranked song_id with no `songs` row still appears in the
results of `match_hashes_sqlite`, with artist and title `"?"`; no candidate
is filtered out (the result has exactly one entry per ranked candidate in
`scored[:topk]`). -/
theorem missing_meta_placeholder {K : Type} [DecidableEq K]
    (hashes : List (K × ℤ)) (tbl : List (K × ℤ × ℤ))
    (songs : List (ℤ × String × String)) (topk : ℕ) (x : ℤ × ℕ × ℤ × ℕ)
    (hx : x ∈ (sqliteScored hashes tbl).take topk)
    (hmiss : songs.reverse.find? (fun r => decide (r.1 = x.1)) = none) :
    ("?", "?", x.2.1, x.2.2.1, x.2.2.2) ∈ match_hashes_sqlite hashes tbl songs topk ∧
    (match_hashes_sqlite hashes tbl songs topk).length =
      ((sqliteScored hashes tbl).take topk).length := by
  by_cases h : hashes = []
  · subst h
    have : (sqliteScored ([] : List (K × ℤ)) tbl) = [] := rfl
    rw [this] at hx
    simp at hx
  · have hm : metaGet songs x.1 = ("?", "?") := by
      simp [metaGet, hmiss]
    unfold match_hashes_sqlite
    rw [if_neg h]
    constructor
    · refine List.mem_map.mpr ⟨x, hx, ?_⟩
      rw [hm]
    · exact List.length_map _ _

/-- C10 witness: a one-posting table with an empty `songs` table; the
ranked candidate appears decorated with `("?", "?")`. -/
theorem missing_meta_placeholder_witness :
    ("?", "?", 1, 3, 1) ∈
      match_hashes_sqlite [((0 : ℕ), (0 : ℤ))] [(0, ((5 : ℤ), (3 : ℤ)))] [] 1 ∧
    (match_hashes_sqlite [((0 : ℕ), (0 : ℤ))] [(0, ((5 : ℤ), (3 : ℤ)))] [] 1).length =
      ((sqliteScored [((0 : ℕ), (0 : ℤ))] [(0, ((5 : ℤ), (3 : ℤ)))]).take 1).length :=
  missing_meta_placeholder [((0 : ℕ), (0 : ℤ))] [(0, ((5 : ℤ), (3 : ℤ)))] [] 1
    (5, 1, 3, 1) (by decide) (by decide)

/-! ## C7: error propagation in the build loop -/

theorem songIds_processItem_superset (st : Store) (it : BuildItem) (s : ℤ)
    (hs : s ∈ songIds st) : s ∈ songIds (processItem st it) := by
  unfold processItem
  by_cases he : song_exists st it.sid
  · simpa [he]
  · rw [if_neg he]
    cases it.fetch with
    | error e => exact hs
    | ok hl =>
      dsimp only
      by_cases hl0 : hl = []
      · simpa [hl0]
      · rw [if_neg hl0]
        by_cases hok : it.storeOk
        · rw [if_pos hok]
          cases hconv : convRows it.sid hl with
          | none => simp [add_hashes, hconv]; exact hs
          | some rows =>
            simp only [add_hashes, hconv, Option.map_some']
            by_cases hsid : s = it.sid
            · simp [songIds, add_song, hsid]
            · simp only [songIds, add_song, List.map_append, List.mem_append]
              left
              simp only [songIds, List.mem_map] at hs
              obtain ⟨r, hr, hrs⟩ := hs
              refine List.mem_map.mpr ⟨r, List.mem_filter.mpr ⟨hr, ?_⟩, hrs⟩
              simp [hrs, hsid]
        · simpa [hok]

theorem songIds_processItem_subset (st : Store) (it : BuildItem) (s : ℤ)
    (hs : s ∈ songIds (processItem st it)) : s ∈ songIds st ∨ s = it.sid := by
  unfold processItem at hs
  by_cases he : song_exists st it.sid
  · rw [if_pos he] at hs; exact Or.inl hs
  · rw [if_neg he] at hs
    revert hs
    cases it.fetch with
    | error e => intro hs; exact Or.inl hs
    | ok hl =>
      intro hs
      dsimp only at hs
      by_cases hl0 : hl = []
      · rw [if_pos hl0] at hs; exact Or.inl hs
      · rw [if_neg hl0] at hs
        by_cases hok : it.storeOk
        · rw [if_pos hok] at hs
          cases hconv : convRows it.sid hl with
          | none =>
            simp only [add_hashes, hconv, Option.map_none'] at hs
            exact Or.inl hs
          | some rows =>
            simp only [add_hashes, hconv, Option.map_some'] at hs
            simp only [songIds, add_song, List.map_append, List.mem_append,
              List.mem_map, List.mem_filter] at hs
            rcases hs with ⟨r, ⟨hr, _⟩, hrs⟩ | hs
            · exact Or.inl (List.mem_map.mpr ⟨r, hr, hrs⟩)
            · simp at hs
              exact Or.inr hs.symm
        · rw [if_neg hok] at hs; exact Or.inl hs

theorem songIds_build_superset (st : Store) (items : List BuildItem) (s : ℤ)
    (hs : s ∈ songIds st) :
    s ∈ songIds (build_fingerprint_db_from_json st items) := by
  induction items generalizing st with
  | nil => exact hs
  | cons it rest ih =>
    exact ih (processItem st it) (songIds_processItem_superset st it s hs)

/-- **C7 (amended)**: every error raised inside the per-item `try` block —
acquisition and decode errors *and* store failures in `add_song` /
`add_hashes` / `commit` — is caught, and the build continues with the next
item: an item whose acquisition and store both succeed is indexed no matter
how the items before and after it fail. -/
theorem build_continues_past_failures (st : Store) (pre post : List BuildItem)
    (it : BuildItem) (hl : List (String × ℤ)) (rows : List (List ℕ × ℤ × ℤ))
    (hfetch : it.fetch = Except.ok hl) (hne : hl ≠ []) (hok : it.storeOk = true)
    (hconv : convRows it.sid hl = some rows)
    (hfresh : it.sid ∉ songIds st)
    (hpre : ∀ p ∈ pre, p.sid ≠ it.sid) :
    it.sid ∈ songIds (build_fingerprint_db_from_json st (pre ++ it :: post)) := by
  have hmid : ∀ st' : Store, it.sid ∉ songIds st' →
      it.sid ∈ songIds (processItem st' it) := by
    intro st' hf
    have hex : song_exists st' it.sid = false := by
      by_contra hc
      have : song_exists st' it.sid = true := by
        cases hb : song_exists st' it.sid
        · exact absurd hb hc
        · rfl
      simp only [song_exists, List.any_eq_true] at this
      obtain ⟨r, hr, hrs⟩ := this
      exact hf (List.mem_map.mpr ⟨r, hr, by simpa using hrs⟩)
    unfold processItem
    rw [hex, if_neg (by simp), hfetch]
    dsimp only
    rw [if_neg hne, if_pos hok, add_hashes, hconv]
    simp [songIds, add_song]
  have hafterpre : it.sid ∉ songIds (build_fingerprint_db_from_json st pre) := by
    clear hmid
    induction pre generalizing st with
    | nil => exact hfresh
    | cons p rest ih =>
      have hp : p.sid ≠ it.sid := hpre p (by simp)
      have : it.sid ∉ songIds (processItem st p) := by
        intro hmem
        rcases songIds_processItem_subset st p it.sid hmem with h | h
        · exact hfresh h
        · exact hp h.symm
      exact ih (processItem st p) this (fun q hq => hpre q (by simp [hq]))
  have hsplit : build_fingerprint_db_from_json st (pre ++ it :: post) =
      build_fingerprint_db_from_json
        (processItem (build_fingerprint_db_from_json st pre) it) post := by
    unfold build_fingerprint_db_from_json
    rw [List.foldl_append]
    rfl
  rw [hsplit]
  exact songIds_build_superset _ post it.sid
    (hmid (build_fingerprint_db_from_json st pre) hafterpre)

/-- C7 witness: a two-item manifest whose first item's store write fails;
the second item is still indexed. -/
theorem build_continues_past_failures_witness :
    (2 : ℤ) ∈ songIds (build_fingerprint_db_from_json ⟨[], []⟩
      [⟨1, "a", "t", Except.ok [("00", 0)], false⟩,
       ⟨2, "b", "u", Except.ok [("00", 0)], true⟩]) :=
  build_continues_past_failures ⟨[], []⟩
    [⟨1, "a", "t", Except.ok [("00", 0)], false⟩] []
    ⟨2, "b", "u", Except.ok [("00", 0)], true⟩ [("00", 0)] [([0], 2, 0)]
    rfl (by decide) rfl (by decide) (by decide) (by decide)

/-- **C7 (counterexample)**: the claim says an error raised by `add_song`,
`add_hashes` or `commit` aborts the build; in the code those calls sit
inside the same per-item `try/except` as acquisition, so a store failure on
item 1 is caught and item 2 is still processed — the final `songs` table is
`[2]`, not `[]`. -/
theorem store_error_does_not_abort_build :
    songIds (build_fingerprint_db_from_json ⟨[], []⟩
      [⟨1, "a", "t", Except.ok [("00", 0)], false⟩,
       ⟨2, "b", "u", Except.ok [("00", 0)], true⟩]) = [2] := by
  decide

/-! ## C9: stored hash keys are 16 bytes -/

theorem md5Bytes_length (msg : List ℕ) : (md5Bytes msg).length = 16 := by
  simp [md5Bytes]

theorem md5Bytes_lt_256 (msg : List ℕ) : ∀ b ∈ md5Bytes msg, b < 256 := by
  intro b hb
  simp only [md5Bytes, List.mem_append, List.mem_cons, List.not_mem_nil, or_false] at hb
  omega

theorem flatMap_byteToHex_length (vs : List ℕ) :
    (vs.flatMap byteToHex).length = 2 * vs.length := by
  induction vs with
  | nil => rfl
  | cons b rest ih => simp [byteToHex, ih]; omega

theorem toHexStr_length (bs : List ℕ) : (toHexStr bs).length = 2 * bs.length := by
  simp only [toHexStr, String.length]
  exact flatMap_byteToHex_length bs

theorem hexVal_hexDigitChar (n : ℕ) (h : n < 16) : hexVal (hexDigitChar n) = some n := by
  interval_cases n <;> rfl

theorem hexVal_isSome_of_byteToHex (b : ℕ) (hb : b < 256) :
    ∀ c ∈ byteToHex b, (hexVal c).isSome := by
  intro c hc
  simp only [byteToHex, List.mem_cons, List.not_mem_nil, or_false] at hc
  rcases hc with h | h <;> subst h
  · rw [hexVal_hexDigitChar (b / 16) (by omega)]; rfl
  · rw [hexVal_hexDigitChar (b % 16) (by omega)]; rfl

theorem hexPairsToBytes_roundtrip (bs : List ℕ) (h : ∀ b ∈ bs, b < 256) :
    hexPairsToBytes (bs.flatMap byteToHex) = some bs := by
  induction bs with
  | nil => rfl
  | cons b rest ih =>
    have hb : b < 256 := h b (by simp)
    have hrest := ih (fun x hx => h x (by simp [hx]))
    simp only [List.flatMap_cons, byteToHex, List.cons_append, List.nil_append]
    show hexPairsToBytes (hexDigitChar (b / 16) :: hexDigitChar (b % 16) ::
      rest.flatMap byteToHex) = some (b :: rest)
    rw [hexPairsToBytes, hexVal_hexDigitChar (b / 16) (by omega),
      hexVal_hexDigitChar (b % 16) (by omega), hrest]
    simp only [Option.map_some']
    have : 16 * (b / 16) + b % 16 = b := by omega
    rw [this]

theorem bytesFromHex_md5Hex (msg : List ℕ) :
    bytesFromHex (md5Hex msg) = some (md5Bytes msg) := by
  simp only [bytesFromHex, md5Hex, toHexStr]
  exact hexPairsToBytes_roundtrip (md5Bytes msg) (md5Bytes_lt_256 msg)

theorem hash_pair_length (f1 f2 dt : ℕ) : (hash_pair f1 f2 dt).length = 32 := by
  simp only [hash_pair, md5Hex]
  rw [toHexStr_length, md5Bytes_length]

theorem hash_pair_hex (f1 f2 dt : ℕ) :
    ∀ c ∈ (hash_pair f1 f2 dt).data, (hexVal c).isSome := by
  intro c hc
  simp only [hash_pair, md5Hex, toHexStr] at hc
  have hc' : c ∈ (md5Bytes _).flatMap byteToHex := hc
  rw [List.mem_flatMap] at hc'
  obtain ⟨b, hb, hcb⟩ := hc'
  exact hexVal_isSome_of_byteToHex b (md5Bytes_lt_256 _ b hb) c hcb

theorem convRows_of_hash_pairs (sid : ℤ) (hl : List (String × ℤ))
    (hkeys : ∀ p ∈ hl, ∃ a b c, p.1 = hash_pair a b c) :
    ∃ rows, convRows sid hl = some rows ∧
      rows.map (fun r => (r.2.1, r.2.2)) = hl.map (fun p => (sid, p.2)) ∧
      ∀ r ∈ rows, r.1.length = 16 := by
  induction hl with
  | nil => exact ⟨[], rfl, rfl, by simp⟩
  | cons p rest ih =>
    obtain ⟨rows, hr, hmap, hlen⟩ := ih (fun q hq => hkeys q (by simp [hq]))
    obtain ⟨a, b, c, hp⟩ := hkeys p (by simp)
    have hbytes : bytesFromHex p.1 = some (md5Bytes
        (strBytes (toString a ++ "|" ++ toString b ++ "|" ++ toString c))) := by
      rw [hp]
      exact bytesFromHex_md5Hex _
    refine ⟨(md5Bytes (strBytes (toString a ++ "|" ++ toString b ++ "|" ++ toString c)),
      sid, p.2) :: rows, ?_, ?_, ?_⟩
    · rw [convRows, hbytes, hr]
      rfl
    · simp [hmap]
    · intro r hrr
      rcases List.mem_cons.mp hrr with h | h
      · subst h
        exact md5Bytes_length _
      · exact hlen r h

/-- **C9**: `hash_pair` always yields a 32-character hexadecimal digest,
and for every hash list whose keys come from `hash_pair`, `add_hashes`
succeeds and stores rows whose raw keys are exactly 16 bytes (every
pre-existing row is kept, the appended rows carry `song_id` `sid` and the
listed anchor times, and every appended key has length 16). -/
theorem add_hashes_keys_sixteen_bytes (st : Store) (sid : ℤ)
    (hl : List (String × ℤ))
    (hkeys : ∀ p ∈ hl, ∃ a b c, p.1 = hash_pair a b c) :
    (∀ f1 f2 dt : ℕ, (hash_pair f1 f2 dt).length = 32 ∧
      ∀ c ∈ (hash_pair f1 f2 dt).data, (hexVal c).isSome) ∧
    ∃ st', add_hashes st sid hl = some st' ∧ st'.songs = st.songs ∧
      ∃ rows, st'.hashes = st.hashes ++ rows ∧
        rows.map (fun r => (r.2.1, r.2.2)) = hl.map (fun p => (sid, p.2)) ∧
        ∀ r ∈ rows, r.1.length = 16 := by
  refine ⟨fun f1 f2 dt => ⟨hash_pair_length f1 f2 dt, hash_pair_hex f1 f2 dt⟩, ?_⟩
  obtain ⟨rows, hr, hmap, hlen⟩ := convRows_of_hash_pairs sid hl hkeys
  exact ⟨{ st with hashes := st.hashes ++ rows }, by simp [add_hashes, hr], rfl,
    rows, rfl, hmap, hlen⟩

/-- C9 witness: one `hash_pair`-keyed entry added to the empty store. -/
theorem add_hashes_keys_sixteen_bytes_witness :
    (∀ f1 f2 dt : ℕ, (hash_pair f1 f2 dt).length = 32 ∧
      ∀ c ∈ (hash_pair f1 f2 dt).data, (hexVal c).isSome) ∧
    ∃ st', add_hashes ⟨[], []⟩ 7 [(hash_pair 1 2 3, 5)] = some st' ∧
      st'.songs = Store.songs ⟨[], []⟩ ∧
      ∃ rows, st'.hashes = Store.hashes ⟨[], []⟩ ++ rows ∧
        rows.map (fun r => (r.2.1, r.2.2)) =
          [(hash_pair 1 2 3, (5 : ℤ))].map (fun p => ((7 : ℤ), p.2)) ∧
        ∀ r ∈ rows, r.1.length = 16 :=
  add_hashes_keys_sixteen_bytes ⟨[], []⟩ 7 [(hash_pair 1 2 3, 5)]
    (fun p hp => ⟨1, 2, 3, by simp at hp; rw [hp]⟩)

/-! ## The peak pipeline on constant spectrograms

`amplitude_to_db` maps entirely silent audio to an all-`0` dB matrix (not
an all-`−∞` one), and `local_maxima` of a constant matrix accepts every
cell; these lemmas drive C2, C3, C4 and C5. -/

theorem foldl_max_with_all_eq {α : Type} [LinearOrder α] (c : α)
    (l : List α) (acc : α) (hall : ∀ x ∈ l, x = c) (hne : l ≠ []) :
    l.foldl max acc = max acc c := by
  induction l generalizing acc with
  | nil => exact absurd rfl hne
  | cons x xs ih =>
    have hx : x = c := hall x (by simp)
    subst hx
    by_cases hxs : xs = []
    · subst hxs; simp
    · rw [List.foldl_cons, ih (max acc x) (fun z hz => hall z (by simp [hz])) hxs,
        max_assoc, max_self]

theorem le_foldl_max {α : Type} [LinearOrder α] (l : List α) (acc : α) :
    acc ≤ l.foldl max acc := by
  induction l generalizing acc with
  | nil => simp
  | cons x xs ih => exact le_trans (le_max_left acc x) (ih (max acc x))

theorem mem_le_foldl_max {α : Type} [LinearOrder α] (l : List α) (acc x : α)
    (hx : x ∈ l) : x ≤ l.foldl max acc := by
  induction l generalizing acc with
  | nil => simp at hx
  | cons y ys ih =>
    rcases List.mem_cons.mp hx with h | h
    · subst h
      exact le_trans (le_max_right acc x) (le_foldl_max ys (max acc x))
    · exact ih (max acc y) h

theorem foldl_max_cases {α : Type} [LinearOrder α] (l : List α) (acc : α) :
    l.foldl max acc = acc ∨ l.foldl max acc ∈ l := by
  induction l generalizing acc with
  | nil => exact Or.inl rfl
  | cons x xs ih =>
    rw [List.foldl_cons]
    rcases ih (max acc x) with h | h
    · rcases le_or_lt x acc with hle | hlt
      · left; rw [h]; exact max_eq_left hle
      · right; rw [h, max_eq_right hlt.le]; simp
    · exact Or.inr (List.mem_cons_of_mem _ h)

theorem listMaxR_ge (l : List ℝ) (x : ℝ) (hx : x ∈ l) : x ≤ listMaxR l := by
  cases l with
  | nil => simp at hx
  | cons y ys =>
    rcases List.mem_cons.mp hx with h | h
    · subst h; exact le_foldl_max ys x
    · exact mem_le_foldl_max ys y x h

theorem listMaxR_mem (l : List ℝ) (hne : l ≠ []) : listMaxR l ∈ l := by
  cases l with
  | nil => exact absurd rfl hne
  | cons y ys =>
    rcases foldl_max_cases ys y with h | h
    · simp only [listMaxR, h]; simp
    · simp only [listMaxR, h]; simp [h]

theorem listMaxR_all_zero (l : List ℝ) (hall : ∀ x ∈ l, x = 0) :
    listMaxR l = 0 := by
  cases l with
  | nil => rfl
  | cons y ys =>
    have hy : y = 0 := hall y (by simp)
    subst hy
    by_cases hys : ys = []
    · subst hys; rfl
    · simp only [listMaxR]
      rw [foldl_max_with_all_eq 0 ys 0 (fun x hx => hall x (by simp [hx])) hys]
      simp

theorem dbOfPow_self (x : ℝ) : dbOfPow x x = 0 := sub_self _

theorem aminSq_pos : (0 : ℝ) < aminSq := by
  rw [aminSq]; norm_num

theorem dbOfPow_nonpos (x r : ℝ) (h : x ≤ r) : dbOfPow x r ≤ 0 := by
  rw [dbOfPow, sub_nonpos]
  have h1 : (0 : ℝ) < max aminSq x := lt_max_of_lt_left aminSq_pos
  have h2 : max aminSq x ≤ max aminSq r := max_le_max le_rfl h
  have := Real.logb_le_logb_of_le (by norm_num : (1 : ℝ) < 10) h1 h2
  linarith

theorem mem_flatten_zeroMags (m n : ℕ) (x : ℝ) (hx : x ∈ (zeroMags m n).flatten) :
    x = 0 := by
  rw [List.mem_flatten] at hx
  obtain ⟨row, hrow, hxr⟩ := hx
  rw [zeroMags] at hrow
  rw [List.eq_of_mem_replicate hrow] at hxr
  exact List.eq_of_mem_replicate hxr

theorem amplitude_to_db_zeroMags (m n : ℕ) :
    amplitude_to_db (zeroMags m n) =
      List.replicate m (List.replicate n ((0 : ℝ) : WithBot ℝ)) := by
  have hmax : listMaxR (zeroMags m n).flatten = 0 :=
    listMaxR_all_zero _ (mem_flatten_zeroMags m n)
  have hpre : preDb (zeroMags m n) = List.replicate m (List.replicate n (0 : ℝ)) := by
    unfold preDb
    rw [hmax]
    unfold zeroMags
    rw [List.map_replicate, List.map_replicate]
    norm_num [dbOfPow_self]
  have hpremax : listMaxR (List.replicate m (List.replicate n (0 : ℝ))).flatten = 0 := by
    apply listMaxR_all_zero
    intro x hx
    rw [List.mem_flatten] at hx
    obtain ⟨row, hrow, hxr⟩ := hx
    rw [List.eq_of_mem_replicate hrow] at hxr
    exact List.eq_of_mem_replicate hxr
  unfold amplitude_to_db
  rw [hpre, hpremax, List.map_replicate, List.map_replicate]
  norm_num

theorem getD_replicate {α : Type} (m k : ℕ) (a d : α) :
    (List.replicate m a).getD k d = if k < m then a else d := by
  induction m generalizing k with
  | zero => simp
  | succ mm ih =>
    cases k with
    | zero => simp [List.replicate_succ]
    | succ kk =>
      rw [List.replicate_succ, List.getD_cons_succ, ih kk]
      by_cases h : kk < mm
      · rw [if_pos h, if_pos (by omega)]
      · rw [if_neg h, if_neg (by omega)]

theorem cellAt_const {α : Type} [Zero α] (m n : ℕ) (i j : ℤ) :
    cellAt (List.replicate m (List.replicate n ((0 : α) : WithBot α))) i j =
      ((0 : α) : WithBot α) := by
  unfold cellAt
  split
  · rw [getD_replicate]
    split
    · rw [getD_replicate]
      split
      · rfl
      · rfl
    · simp
  · rfl

theorem maxFilterAt_const {α : Type} [LinearOrder α] [Zero α] (m n f t : ℕ) :
    maxFilterAt (List.replicate m (List.replicate n ((0 : α) : WithBot α))) f t =
      ((0 : α) : WithBot α) := by
  unfold maxFilterAt listMaxB
  rw [foldl_max_with_all_eq ((0 : α) : WithBot α)]
  · exact max_eq_right bot_le
  · intro x hx
    rw [List.mem_flatMap] at hx
    obtain ⟨df, _, hx⟩ := hx
    rw [List.mem_map] at hx
    obtain ⟨dt, _, hx⟩ := hx
    rw [← hx, cellAt_const]
  · apply List.ne_nil_of_mem (a := cellAt
      (List.replicate m (List.replicate n ((0 : α) : WithBot α)))
      ((f : ℤ) + (-8)) ((t : ℤ) + (-8)))
    rw [List.mem_flatMap]
    exact ⟨-8, by decide, List.mem_map.mpr ⟨-8, by decide, rfl⟩⟩

theorem isPeak_const {α : Type} [LinearOrder α] [Zero α] (m n f t : ℕ)
    (hf : f < m) (ht : t < n) :
    isPeak (List.replicate m (List.replicate n ((0 : α) : WithBot α))) m n f t = true := by
  unfold isPeak
  rw [maxFilterAt_const]
  have hval : ((List.replicate m (List.replicate n ((0 : α) : WithBot α))).getD f []).getD
      t ((0 : α) : WithBot α) = ((0 : α) : WithBot α) := by
    rw [getD_replicate, if_pos hf, getD_replicate, if_pos ht]
  rw [hval]
  have hbg : bgAt (List.replicate m (List.replicate n ((0 : α) : WithBot α))) m n
      (f : ℤ) (t : ℤ) = false := by
    unfold bgAt
    rw [if_pos (by constructor <;> [omega; constructor <;> [omega; constructor <;> omega]])]
    simp only [Int.toNat_natCast, decide_eq_false_iff_not]
    rw [hval]
    exact WithBot.coe_ne_bot
  unfold erodedAt
  rw [hbg]
  simp

theorem filterMap_eq_map_of {α β : Type} (l : List α) (g : α → Option β) (hf : α → β)
    (h : ∀ x ∈ l, g x = some (hf x)) : l.filterMap g = l.map hf := by
  induction l with
  | nil => rfl
  | cons x xs ih =>
    rw [List.filterMap_cons, h x (by simp), List.map_cons,
      ih (fun y hy => h y (by simp [hy]))]

theorem peaksRaw_const {α : Type} [LinearOrder α] [Zero α] (m n : ℕ) :
    peaksRaw (List.replicate m (List.replicate n ((0 : α) : WithBot α))) =
      (List.range m).flatMap (fun f => (List.range n).map (fun t => (f, t))) := by
  by_cases hm : m = 0
  · subst hm; rfl
  unfold peaksRaw
  have hlen : (List.replicate m (List.replicate n ((0 : α) : WithBot α))).length = m :=
    List.length_replicate _ _
  have hhead : (List.replicate m (List.replicate n ((0 : α) : WithBot α))).headD [] =
      List.replicate n ((0 : α) : WithBot α) := by
    cases m with
    | zero => exact absurd rfl hm
    | succ mm => rw [List.replicate_succ]; rfl
  rw [hlen, hhead, List.length_replicate]
  apply List.flatMap_congr
  intro f hfm
  apply filterMap_eq_map_of
  intro t htn
  rw [if_pos (isPeak_const m n f t (List.mem_range.mp hfm) (List.mem_range.mp htn))]

theorem addG_ne_nil {K β : Type} [DecidableEq K] (g : List (K × List β)) (k : K) (b : β) :
    addG g k b ≠ [] := by
  cases g with
  | nil => simp [addG]
  | cons e rest =>
    simp only [addG]
    split <;> simp

theorem foldl_addG_ne_nil {K β γ : Type} [DecidableEq K] (key : γ → K) (val : γ → β)
    (l : List γ) (acc : List (K × List β)) (h : acc ≠ [] ∨ l ≠ []) :
    l.foldl (fun g p => addG g (key p) (val p)) acc ≠ [] := by
  induction l generalizing acc with
  | nil => exact h.resolve_right (fun hc => hc rfl)
  | cons p rest ih =>
    exact ih (addG acc (key p) (val p)) (Or.inl (addG_ne_nil acc (key p) (val p)))

theorem mem_addG_snd_ne_nil {K β : Type} [DecidableEq K] :
    ∀ (g : List (K × List β)) (k : K) (b : β),
      (∀ x ∈ g, x.2 ≠ []) → ∀ y ∈ addG g k b, y.2 ≠ []
  | [], k, b, _ => by
    intro y hy
    simp only [addG, List.mem_cons, List.not_mem_nil, or_false] at hy
    subst hy; simp
  | w :: rest, k, b, hg => by
    intro y hy
    simp only [addG] at hy
    by_cases hw : w.1 = k
    · rw [if_pos hw] at hy
      rcases List.mem_cons.mp hy with h | h
      · rw [h]; simp
      · exact hg y (List.mem_cons_of_mem w h)
    · rw [if_neg hw] at hy
      rcases List.mem_cons.mp hy with h | h
      · rw [h]; exact hg w (by simp)
      · exact mem_addG_snd_ne_nil rest k b
          (fun x hx => hg x (List.mem_cons_of_mem w hx)) y h

theorem foldl_addG_snd_ne_nil {K β γ : Type} [DecidableEq K] (key : γ → K)
    (val : γ → β) (l : List γ) (acc : List (K × List β))
    (hacc : ∀ e ∈ acc, e.2 ≠ []) :
    ∀ e ∈ l.foldl (fun g p => addG g (key p) (val p)) acc, e.2 ≠ [] := by
  induction l generalizing acc with
  | nil => exact hacc
  | cons p rest ih =>
    exact ih (addG acc (key p) (val p)) (mem_addG_snd_ne_nil acc (key p) (val p) hacc)

theorem insertValDesc_perm {α : Type} [LinearOrder α] (x : ℕ × WithBot α)
    (l : List (ℕ × WithBot α)) : List.Perm (insertValDesc x l) (x :: l) := by
  induction l with
  | nil => exact List.Perm.refl _
  | cons y ys ih =>
    simp only [insertValDesc]
    split
    · exact (ih.cons y).trans (List.Perm.swap x y ys)
    · exact List.Perm.refl _

theorem sortValDesc_perm {α : Type} [LinearOrder α] (l : List (ℕ × WithBot α)) :
    List.Perm (sortValDesc l) l := by
  induction l with
  | nil => exact List.Perm.refl _
  | cons x xs ih => exact (insertValDesc_perm x (sortValDesc xs)).trans (ih.cons x)

theorem insertTimeAsc_perm (x : ℕ × ℕ) (l : List (ℕ × ℕ)) :
    List.Perm (insertTimeAsc x l) (x :: l) := by
  induction l with
  | nil => exact List.Perm.refl _
  | cons y ys ih =>
    simp only [insertTimeAsc]
    split
    · exact (ih.cons y).trans (List.Perm.swap x y ys)
    · exact List.Perm.refl _

theorem sortTimeAsc_perm (l : List (ℕ × ℕ)) : List.Perm (sortTimeAsc l) l := by
  induction l with
  | nil => exact List.Perm.refl _
  | cons x xs ih => exact (insertTimeAsc_perm x (sortTimeAsc xs)).trans (ih.cons x)

theorem sortTimeAsc_of_sorted (l : List (ℕ × ℕ))
    (h : List.Chain' (fun a b => a.2 ≤ b.2) l) : sortTimeAsc l = l := by
  induction l with
  | nil => rfl
  | cons x xs ih =>
    show insertTimeAsc x (sortTimeAsc xs) = x :: xs
    rw [ih h.tail]
    cases xs with
    | nil => rfl
    | cons y ys =>
      have hxy : x.2 ≤ y.2 := (List.chain'_cons.mp h).1
      simp only [insertTimeAsc]
      rw [if_neg (by omega)]

theorem addG_of_not_mem {K β : Type} [DecidableEq K] (g : List (K × List β)) (k : K)
    (b : β) (h : k ∉ g.map Prod.fst) : addG g k b = g ++ [(k, [b])] := by
  induction g with
  | nil => rfl
  | cons e rest ih =>
    have he : e.1 ≠ k := by
      intro hc
      exact h (by simp [hc])
    simp only [addG, if_neg he, List.cons_append]
    rw [ih (fun hc => h (by simp [hc]))]

theorem foldl_addG_range {α : Type} [LinearOrder α] [Zero α]
    (S : List (List (WithBot α)))
    (hv : ∀ t : ℕ, (S.getD 0 []).getD t ((0 : α) : WithBot α) = ((0 : α) : WithBot α))
    (n : ℕ) :
    ((List.range n).map (fun t => ((0 : ℕ), t))).foldl
        (fun g p => addG g p.2 (p.1, (S.getD p.1 []).getD p.2 ((0 : α) : WithBot α))) [] =
      (List.range n).map (fun t => (t, [((0 : ℕ), ((0 : α) : WithBot α))])) := by
  induction n with
  | zero => rfl
  | succ k ih =>
    rw [List.range_succ, List.map_append, List.foldl_append, ih, List.map_append]
    simp only [List.map_cons, List.map_nil, List.foldl_cons, List.foldl_nil]
    rw [hv k]
    rw [addG_of_not_mem]
    simp only [List.map_map, List.mem_map, List.mem_range]
    intro hc
    obtain ⟨t, ht, hteq⟩ := hc
    simp at hteq
    omega

theorem groupsOf_const_one_row {α : Type} [LinearOrder α] [Zero α] (n : ℕ) :
    groupsOf (List.replicate 1 (List.replicate n ((0 : α) : WithBot α))) =
      (List.range n).map (fun t => (t, [((0 : ℕ), ((0 : α) : WithBot α))])) := by
  unfold groupsOf
  rw [peaksRaw_const]
  have hstream : (List.range 1).flatMap
      (fun f => (List.range n).map (fun t => (f, t))) =
      (List.range n).map (fun t => ((0 : ℕ), t)) := by
    have h1 : List.range 1 = [0] := rfl
    rw [h1]
    simp
  rw [hstream]
  apply foldl_addG_range
  intro t
  rw [getD_replicate, if_pos (by omega), getD_replicate]
  split <;> rfl

theorem flatMap_single {α β : Type} (l : List α) (f : α → β) :
    l.flatMap (fun a => [f a]) = l.map f := by
  induction l with
  | nil => rfl
  | cons x xs ih => simp [ih]

theorem keptOf_const_one_row {α : Type} [LinearOrder α] [Zero α] (n : ℕ) :
    keptOf (List.replicate 1 (List.replicate n ((0 : α) : WithBot α))) =
      (List.range n).map (fun t => ((0 : ℕ), t)) := by
  unfold keptOf
  rw [groupsOf_const_one_row, List.flatMap_map]
  have : ∀ t : ℕ,
      (((sortValDesc [((0 : ℕ), ((0 : α) : WithBot α))]).take TOP_PEAKS_PER_FRAME).map
        (fun fa => (fa.1, t))) = [((0 : ℕ), t)] := by
    intro t
    rfl
  calc (List.range n).flatMap (fun t =>
        (((sortValDesc [((0 : ℕ), ((0 : α) : WithBot α))]).take TOP_PEAKS_PER_FRAME).map
          (fun fa => (fa.1, t))))
      = (List.range n).flatMap (fun t => [((0 : ℕ), t)]) := by
        apply List.flatMap_congr
        intro t _
        exact this t
    _ = (List.range n).map (fun t => ((0 : ℕ), t)) := flatMap_single _ _

theorem local_maxima_const_one_row {α : Type} [LinearOrder α] [Zero α] (n : ℕ) :
    local_maxima (List.replicate 1 (List.replicate n ((0 : α) : WithBot α))) =
      (List.range n).map (fun t => ((0 : ℕ), t)) := by
  unfold local_maxima
  rw [keptOf_const_one_row]
  apply sortTimeAsc_of_sorted
  rw [List.chain'_map]
  exact ((List.pairwise_lt_range n).chain').imp (fun a b h => le_of_lt h)

/-! ## `dedupF` and the closed form of `defaultdict` folds -/

theorem mem_dedupF {α : Type} [DecidableEq α] (ds : List α) (a : α) :
    a ∈ dedupF ds ↔ a ∈ ds := by
  induction ds using dedupF.induct with
  | case1 => simp [dedupF]
  | case2 x xs ih =>
    rw [dedupF]
    by_cases hax : a = x
    · simp [hax]
    · simp only [List.mem_cons, hax, false_or]
      rw [ih]
      simp [List.mem_filter, hax]

theorem dedupF_nodup {α : Type} [DecidableEq α] (l : List α) : (dedupF l).Nodup := by
  induction l using dedupF.induct with
  | case1 => simp [dedupF]
  | case2 x xs ih =>
    rw [dedupF, List.nodup_cons]
    refine ⟨?_, ih⟩
    intro hc
    rw [mem_dedupF] at hc
    simp [List.mem_filter] at hc

theorem dedupF_filter {α : Type} [DecidableEq α] (p : α → Bool) (l : List α) :
    dedupF (l.filter p) = (dedupF l).filter p := by
  induction l using dedupF.induct with
  | case1 => simp [dedupF]
  | case2 x xs ih =>
    by_cases hp : p x
    · rw [List.filter_cons_of_pos hp, dedupF, dedupF, List.filter_cons_of_pos hp]
      congr 1
      rw [List.filter_filter, ← ih, List.filter_filter]
      congr 1
      exact List.filter_congr (fun a _ => Bool.and_comm _ _)
    · rw [List.filter_cons_of_neg hp, dedupF, List.filter_cons_of_neg hp, ← ih]
      congr 1
      rw [List.filter_filter]
      apply List.filter_congr
      intro a _
      by_cases hpa : p a
      · rw [hpa]
        have hax : a ≠ x := by
          intro hc
          rw [hc] at hpa
          exact hp hpa
        simp [hax]
      · simp only [Bool.not_eq_true] at hpa
        rw [hpa]
        simp

theorem dedupF_append {α : Type} [DecidableEq α] (A B : List α) :
    dedupF (A ++ B) = dedupF A ++ (dedupF B).filter (fun x => decide (x ∉ A)) := by
  induction A using dedupF.induct generalizing B with
  | case1 =>
    rw [List.nil_append]
    rw [show dedupF ([] : List α) = [] from by rw [dedupF]]
    rw [List.nil_append]
    rw [List.filter_eq_self.mpr]
    intro a _
    simp
  | case2 x xs ih =>
    rw [List.cons_append, dedupF, List.filter_append, dedupF, List.cons_append]
    congr 1
    rw [ih, dedupF_filter (fun y => decide (y ≠ x)) B]
    congr 1
    rw [List.filter_filter]
    apply List.filter_congr
    intro a _
    by_cases hax : a = x
    · simp [hax]
    · by_cases haxs : a ∈ xs
      · have : a ∈ List.filter (fun y => decide (y ≠ x)) xs :=
          List.mem_filter.mpr ⟨haxs, by simp [hax]⟩
        simp [this, haxs, hax]
      · have : a ∉ List.filter (fun y => decide (y ≠ x)) xs := by
          intro hc
          exact haxs (List.mem_filter.mp hc).1
        simp [this, haxs, hax]

theorem dedupF_append_singleton {α : Type} [DecidableEq α] (A : List α) (k : α) :
    dedupF (A ++ [k]) = if k ∈ A then dedupF A else dedupF A ++ [k] := by
  rw [dedupF_append]
  by_cases hk : k ∈ A
  · rw [if_pos hk]
    have : (dedupF [k]).filter (fun x => decide (x ∉ A)) = [] := by
      rw [show dedupF [k] = [k] from by rw [dedupF]; rw [show List.filter
        (fun y => decide (y ≠ k)) [] = [] from rfl]; rw [dedupF]]
      simp [hk]
    rw [this, List.append_nil]
  · rw [if_neg hk]
    congr 1
    rw [show dedupF [k] = [k] from by rw [dedupF]; rw [show List.filter
      (fun y => decide (y ≠ k)) [] = [] from rfl]; rw [dedupF]]
    simp [hk]

theorem updAssoc_map_keys {K β : Type} [DecidableEq K] (dflt : β) (f : β → β)
    (ks : List K) (F : K → β) (k : K) (hnd : ks.Nodup) :
    updAssoc dflt f (ks.map (fun x => (x, F x))) k =
      if k ∈ ks then ks.map (fun x => (x, if x = k then f (F x) else F x))
      else ks.map (fun x => (x, F x)) ++ [(k, f dflt)] := by
  induction ks with
  | nil => simp [updAssoc]
  | cons a rest ih =>
    rw [List.map_cons, updAssoc]
    by_cases hak : a = k
    · subst hak
      rw [if_pos rfl, if_pos (by simp)]
      rw [List.map_cons, if_pos rfl]
      congr 1
      apply (List.map_congr_left ?_).symm
      intro x hx
      have : x ≠ a := by
        intro hc
        subst hc
        exact (List.nodup_cons.mp hnd).1 hx
      rw [if_neg this]
    · rw [if_neg hak]
      rw [ih (List.nodup_cons.mp hnd).2]
      by_cases hk : k ∈ rest
      · rw [if_pos hk, if_pos (by simp [hk]), List.map_cons, if_neg hak]
      · rw [if_neg hk, if_neg ?_, List.cons_append]
        intro hc
        rcases List.mem_cons.mp hc with h | h
        · exact hak h.symm
        · exact hk h

theorem foldl_updAssoc_closed {K γ β : Type} [DecidableEq K] (dflt : β) (g : β → γ → β)
    (l : List (K × γ)) :
    l.foldl (fun acc p => updAssoc dflt (fun v => g v p.2) acc p.1) [] =
      (dedupF (l.map Prod.fst)).map (fun k =>
        (k, ((l.filter (fun p => decide (p.1 = k))).map Prod.snd).foldl g dflt)) := by
  induction l using List.reverseRecOn with
  | nil => simp [dedupF]
  | append_singleton xs p ih =>
    rw [List.foldl_append, List.foldl_cons, List.foldl_nil, ih]
    rw [updAssoc_map_keys dflt _ _ _ _ (dedupF_nodup _)]
    rw [List.map_append, List.map_cons, List.map_nil, dedupF_append_singleton]
    by_cases hp : p.1 ∈ xs.map Prod.fst
    · rw [if_pos ((mem_dedupF _ _).mpr hp), if_pos hp]
      apply List.map_congr_left
      intro x hx
      by_cases hxp : x = p.1
      · rw [if_pos hxp]
        congr 1
        rw [List.filter_append,
          show List.filter (fun q => decide (q.1 = x)) [p] = [p] from by simp [hxp],
          List.map_append, List.foldl_append]
        rfl
      · rw [if_neg hxp]
        congr 1
        rw [List.filter_append,
          show List.filter (fun q => decide (q.1 = x)) [p] = [] from by
            simp only [List.filter_cons, List.filter_nil, decide_eq_true_eq]
            rw [if_neg (fun hc => hxp hc.symm)],
          List.append_nil]
    · rw [if_neg (fun hc => hp ((mem_dedupF _ _).mp hc)), if_neg hp, List.map_append]
      congr 1
      · apply List.map_congr_left
        intro x hx
        have hxp : ¬(p.1 = x) := by
          intro hc
          exact hp (hc ▸ (mem_dedupF _ _).mp hx)
        congr 1
        rw [List.filter_append,
          show List.filter (fun q => decide (q.1 = x)) [p] = [] from by
            simp only [List.filter_cons, List.filter_nil, decide_eq_true_eq]
            rw [if_neg hxp],
          List.append_nil]
      · rw [List.map_cons, List.map_nil]
        have hnil : xs.filter (fun q => decide (q.1 = p.1)) = [] := by
          rw [List.filter_eq_nil_iff]
          intro q hq
          simp only [decide_eq_true_eq]
          intro hc
          exact hp (List.mem_map.mpr ⟨q, hq, hc⟩)
        rw [List.filter_append, hnil,
          show List.filter (fun q => decide (q.1 = p.1)) [p] = [p] from by simp,
          List.nil_append]
        rfl

theorem addG_eq_updAssoc {K β : Type} [DecidableEq K] (a : List (K × List β)) (k : K)
    (b : β) : addG a k b = updAssoc [] (fun v => v ++ [b]) a k := by
  induction a with
  | nil => rfl
  | cons e rest ih =>
    simp only [addG, updAssoc]
    by_cases he : e.1 = k
    · rw [if_pos he, if_pos he]
    · rw [if_neg he, if_neg he, ih]

theorem bumpDelta_eq_updAssoc (m : List (ℤ × ℕ)) (d : ℤ) :
    bumpDelta m d = updAssoc 0 (fun c => c + 1) m d := by
  induction m with
  | nil => rfl
  | cons e rest ih =>
    simp only [bumpDelta, updAssoc]
    by_cases he : e.1 = d
    · rw [if_pos he, if_pos he]
    · rw [if_neg he, if_neg he, ih]

theorem bumpVotes_eq_updAssoc (v : List (ℤ × List (ℤ × ℕ))) (s d : ℤ) :
    bumpVotes v s d = updAssoc [] (fun m => bumpDelta m d) v s := by
  induction v with
  | nil => rfl
  | cons e rest ih =>
    simp only [bumpVotes, updAssoc]
    by_cases he : e.1 = s
    · rw [if_pos he, if_pos he]
    · rw [if_neg he, if_neg he, ih]

theorem foldl_addG_eq_upd {K β γ : Type} [DecidableEq K] (key : γ → K) (val : γ → β) :
    ∀ (l : List γ) (acc : List (K × List β)),
      l.foldl (fun a p => addG a (key p) (val p)) acc =
      l.foldl (fun a p => updAssoc [] (fun v => v ++ [val p]) a (key p)) acc
  | [], acc => rfl
  | p :: rest, acc => by
    rw [List.foldl_cons, List.foldl_cons, addG_eq_updAssoc,
      foldl_addG_eq_upd key val rest _]

theorem foldl_addG_closed {K β γ : Type} [DecidableEq K] (key : γ → K) (val : γ → β)
    (l : List γ) :
    l.foldl (fun a p => addG a (key p) (val p)) [] =
      (dedupF (l.map key)).map (fun k =>
        (k, (l.filter (fun p => decide (key p = k))).map val)) := by
  rw [foldl_addG_eq_upd key val l []]
  have h1 : l.foldl (fun a p => updAssoc [] (fun v => v ++ [val p]) a (key p)) [] =
      (l.map (fun p => (key p, val p))).foldl
        (fun a q => updAssoc [] (fun v => v ++ [q.2]) a q.1) [] := by
    rw [List.foldl_map]
  rw [h1, foldl_updAssoc_closed ([] : List β) (fun v t => v ++ [t]), List.map_map]
  have hkey : (Prod.fst ∘ fun p => (key p, val p)) = key := rfl
  rw [hkey]
  apply List.map_congr_left
  intro k _
  congr 1
  rw [List.filter_map]
  have hcomp : ((fun q : K × β => decide (q.1 = k)) ∘ fun p => (key p, val p)) =
      (fun p => decide (key p = k)) := rfl
  rw [hcomp, List.map_map]
  have hsnd : (Prod.snd ∘ fun p => (key p, val p)) = val := rfl
  rw [hsnd]
  have : ∀ (ds : List β) (acc : List β), ds.foldl (fun v t => v ++ [t]) acc = acc ++ ds := by
    intro ds
    induction ds with
    | nil => intro acc; simp
    | cons d rest ih =>
      intro acc
      rw [List.foldl_cons, ih]
      simp
  rw [this, List.nil_append]

theorem groupQ_closed {K : Type} [DecidableEq K] (hs : List (K × ℤ)) :
    groupQ hs = (dedupF (hs.map Prod.fst)).map (fun k =>
      (k, (hs.filter (fun p => decide (p.1 = k))).map Prod.snd)) :=
  foldl_addG_closed Prod.fst Prod.snd hs

theorem foldl_bumpVotes_eq_upd :
    ∀ (l : List (ℤ × ℤ)) (acc : List (ℤ × List (ℤ × ℕ))),
      l.foldl (fun v p => bumpVotes v p.1 p.2) acc =
      l.foldl (fun v p => updAssoc [] (fun m => bumpDelta m p.2) v p.1) acc
  | [], acc => rfl
  | p :: rest, acc => by
    rw [List.foldl_cons, List.foldl_cons, bumpVotes_eq_updAssoc,
      foldl_bumpVotes_eq_upd rest _]

theorem buildVotes_closed (L : List (ℤ × ℤ)) :
    buildVotes L = (dedupF (L.map Prod.fst)).map (fun s =>
      (s, ((L.filter (fun p => decide (p.1 = s))).map Prod.snd).foldl bumpDelta [])) := by
  unfold buildVotes
  rw [foldl_bumpVotes_eq_upd L []]
  exact foldl_updAssoc_closed [] bumpDelta L

theorem foldl_incr_length {β : Type} :
    ∀ (l : List β) (acc : ℕ), l.foldl (fun c _ => c + 1) acc = acc + l.length
  | [], acc => by simp
  | b :: rest, acc => by
    rw [List.foldl_cons, foldl_incr_length rest _, List.length_cons]
    omega

theorem foldl_bumpDelta_closed (ds : List ℤ) :
    ds.foldl bumpDelta [] = (dedupF ds).map (fun d =>
      (d, (ds.filter (fun x => decide (x = d))).length)) := by
  have h0 : ∀ (l : List ℤ) (acc : List (ℤ × ℕ)),
      l.foldl bumpDelta acc = l.foldl (fun m d => updAssoc 0 (fun c => c + 1) m d) acc := by
    intro l
    induction l with
    | nil => intro acc; rfl
    | cons d rest ih =>
      intro acc
      rw [List.foldl_cons, List.foldl_cons, bumpDelta_eq_updAssoc, ih]
  rw [h0]
  have h1 : ds.foldl (fun m d => updAssoc 0 (fun c => c + 1) m d) [] =
      (ds.map (fun d => (d, d))).foldl
        (fun acc q => updAssoc 0 (fun c => c + 1) acc q.1) [] := by
    rw [List.foldl_map]
  rw [h1, foldl_updAssoc_closed (0 : ℕ) (fun c _ => c + 1), List.map_map]
  have hkey : (Prod.fst ∘ fun d : ℤ => (d, d)) = id := rfl
  rw [hkey, List.map_id]
  apply List.map_congr_left
  intro d _
  congr 1
  rw [List.filter_map]
  have hcomp : ((fun q : ℤ × ℤ => decide (q.1 = d)) ∘ fun x : ℤ => (x, x)) =
      (fun x => decide (x = d)) := rfl
  rw [hcomp, List.map_map, foldl_incr_length, List.length_map]
  omega

/-! ## C3/C4: the pair-emission loop -/

theorem mem_emitFor : ∀ (f1 t1 b : ℕ) (l : List (ℕ × ℕ)) (pr : (ℕ × ℕ) × (ℕ × ℕ)),
    pr ∈ emitFor f1 t1 b l →
    pr.1 = (f1, t1) ∧ t1 + TARGET_ZONE_T_FRAMES.1 ≤ pr.2.2 ∧
      pr.2.2 ≤ t1 + TARGET_ZONE_T_FRAMES.2 ∧
      ((pr.2.1 : ℤ) - (f1 : ℤ)).natAbs ≤ TARGET_ZONE_F_BINS
  | f1, t1, b, [], pr, h => by simp [emitFor] at h
  | f1, t1, b, p :: rest, pr, h => by
    by_cases h1 : t1 + TARGET_ZONE_T_FRAMES.2 < p.2
    · rw [emitFor, if_pos h1] at h
      simp at h
    · by_cases h2 : t1 + TARGET_ZONE_T_FRAMES.1 ≤ p.2 ∧
        ((p.1 : ℤ) - (f1 : ℤ)).natAbs ≤ TARGET_ZONE_F_BINS
      · rw [emitFor, if_neg h1, if_pos h2] at h
        rcases List.mem_cons.mp h with he | he
        · subst he
          refine ⟨rfl, h2.1, ?_, h2.2⟩
          show p.2 ≤ t1 + TARGET_ZONE_T_FRAMES.2
          omega
        · by_cases hb : b ≤ 1
          · rw [if_pos hb] at he
            simp at he
          · rw [if_neg hb] at he
            exact mem_emitFor f1 t1 (b - 1) rest pr he
      · rw [emitFor, if_neg h1, if_neg h2] at h
        exact mem_emitFor f1 t1 b rest pr h

theorem emitFor_length : ∀ (f1 t1 b : ℕ) (l : List (ℕ × ℕ)), 1 ≤ b →
    (emitFor f1 t1 b l).length ≤ b
  | f1, t1, b, [], hb => by simp [emitFor]
  | f1, t1, b, p :: rest, hb => by
    rw [emitFor]
    split
    · simp
    · split
      · rw [List.length_cons]
        by_cases hb1 : b ≤ 1
        · rw [if_pos hb1]
          simpa using hb
        · rw [if_neg hb1]
          have := emitFor_length f1 t1 (b - 1) rest (by omega)
          omega
      · exact emitFor_length f1 t1 b rest hb

theorem emitFor_anchor (f1 t1 b : ℕ) (l : List (ℕ × ℕ)) (pr : (ℕ × ℕ) × (ℕ × ℕ))
    (h : pr ∈ emitFor f1 t1 b l) : pr.1 = (f1, t1) :=
  (mem_emitFor f1 t1 b l pr h).1

theorem mem_makePairs : ∀ (peaks : List (ℕ × ℕ)) (pr : (ℕ × ℕ) × (ℕ × ℕ)),
    pr ∈ makePairs peaks →
    pr.1.2 + TARGET_ZONE_T_FRAMES.1 ≤ pr.2.2 ∧
      pr.2.2 ≤ pr.1.2 + TARGET_ZONE_T_FRAMES.2 ∧
      ((pr.2.1 : ℤ) - (pr.1.1 : ℤ)).natAbs ≤ TARGET_ZONE_F_BINS
  | [], pr, h => by simp [makePairs] at h
  | p :: rest, pr, h => by
    rw [makePairs] at h
    rcases List.mem_append.mp h with he | he
    · obtain ⟨ha, h2, h3, h4⟩ := mem_emitFor p.1 p.2 HASH_FANOUT rest pr he
      rw [ha]
      exact ⟨h2, h3, h4⟩
    · exact mem_makePairs rest pr he

theorem mem_makePairs_anchor : ∀ (peaks : List (ℕ × ℕ)) (pr : (ℕ × ℕ) × (ℕ × ℕ)),
    pr ∈ makePairs peaks → pr.1 ∈ peaks
  | [], pr, h => by simp [makePairs] at h
  | p :: rest, pr, h => by
    rw [makePairs] at h
    rcases List.mem_append.mp h with he | he
    · rw [emitFor_anchor p.1 p.2 HASH_FANOUT rest pr he]
      simp
    · exact List.mem_cons_of_mem p (mem_makePairs_anchor rest pr he)

theorem countP_makePairs_anchor : ∀ (peaks : List (ℕ × ℕ)), peaks.Nodup →
    ∀ a : ℕ × ℕ,
      (makePairs peaks).countP (fun pr => decide (pr.1 = a)) ≤ HASH_FANOUT
  | [], _, a => by simp [makePairs]
  | p :: rest, hnd, a => by
    rw [makePairs, List.countP_append]
    by_cases ha : a = p
    · have h1 : (emitFor p.1 p.2 HASH_FANOUT rest).countP
          (fun pr => decide (pr.1 = a)) ≤ HASH_FANOUT :=
        le_trans (List.countP_le_length _) (emitFor_length p.1 p.2 HASH_FANOUT rest
          (by rw [HASH_FANOUT]; omega))
      have h2 : (makePairs rest).countP (fun pr => decide (pr.1 = a)) = 0 := by
        rw [List.countP_eq_zero]
        intro pr hpr
        simp only [decide_eq_true_eq]
        intro hc
        have := mem_makePairs_anchor rest pr hpr
        rw [hc, ha] at this
        exact (List.nodup_cons.mp hnd).1 this
      omega
    · have h1 : (emitFor p.1 p.2 HASH_FANOUT rest).countP
          (fun pr => decide (pr.1 = a)) = 0 := by
        rw [List.countP_eq_zero]
        intro pr hpr
        simp only [decide_eq_true_eq]
        intro hc
        have := emitFor_anchor p.1 p.2 HASH_FANOUT rest pr hpr
        rw [hc, Prod.mk.eta] at this
        exact ha this
      have h2 := countP_makePairs_anchor rest (List.nodup_cons.mp hnd).2 a
      omega

/-! ## The peak list has no duplicates -/

theorem peaksRaw_nodup {α : Type} [LinearOrder α] [Zero α]
    (S : List (List (WithBot α))) : (peaksRaw S).Nodup := by
  unfold peaksRaw
  rw [List.nodup_flatMap]
  constructor
  · intro f _
    apply List.Nodup.filterMap ?_ (List.nodup_range _)
    intro a a' b hb hb'
    split at hb
    · rw [Option.mem_def, Option.some_inj] at hb
      split at hb'
      · rw [Option.mem_def, Option.some_inj] at hb'
        have : a = b.2 := by rw [← hb]
        have h2 : a' = b.2 := by rw [← hb']
        rw [this, h2]
      · simp at hb'
    · simp at hb
  · apply List.Pairwise.imp ?_ (List.pairwise_lt_range _)
    intro f₁ f₂ hlt
    intro x hx₁ hx₂
    rw [List.mem_filterMap] at hx₁ hx₂
    obtain ⟨t₁, _, ht₁⟩ := hx₁
    obtain ⟨t₂, _, ht₂⟩ := hx₂
    split at ht₁
    · split at ht₂
      · rw [Option.some_inj] at ht₁ ht₂
        have h1 : x.1 = f₁ := by rw [← ht₁]
        have h2 : x.1 = f₂ := by rw [← ht₂]
        omega
      · simp at ht₂
    · simp at ht₁

theorem keptOf_nodup {α : Type} [LinearOrder α] [Zero α]
    (S : List (List (WithBot α))) : (keptOf S).Nodup := by
  unfold keptOf groupsOf
  rw [foldl_addG_closed, List.flatMap_map]
  rw [List.nodup_flatMap]
  constructor
  · intro t _
    have harr : ((((peaksRaw S).filter (fun p => decide (p.2 = t))).map
        (fun p => (p.1, (S.getD p.1 []).getD p.2 ((0 : α) : WithBot α)))).map
          Prod.fst).Nodup := by
      rw [List.map_map]
      apply List.Nodup.map_on ?_ ((peaksRaw_nodup S).filter _)
      intro x hx y hy hxy
      have hxt : x.2 = t := by simpa using (List.mem_filter.mp hx).2
      have hyt : y.2 = t := by simpa using (List.mem_filter.mp hy).2
      have hfst : x.1 = y.1 := hxy
      exact Prod.ext hfst (hxt.trans hyt.symm)
    have hsv := ((sortValDesc_perm (((peaksRaw S).filter (fun p => decide (p.2 = t))).map
        (fun p => (p.1, (S.getD p.1 []).getD p.2 ((0 : α) : WithBot α))))).map
          Prod.fst).nodup_iff.mpr harr
    have htake : (((sortValDesc (((peaksRaw S).filter (fun p => decide (p.2 = t))).map
        (fun p => (p.1, (S.getD p.1 []).getD p.2 ((0 : α) : WithBot α))))).take
          TOP_PEAKS_PER_FRAME).map Prod.fst).Nodup := by
      rw [List.map_take]
      exact hsv.sublist (List.take_sublist _ _)
    have hred : ((sortValDesc (((peaksRaw S).filter (fun p => decide (p.2 = t))).map
        (fun p => (p.1, (S.getD p.1 []).getD p.2 ((0 : α) : WithBot α))))).take
          TOP_PEAKS_PER_FRAME).map (fun fa => (fa.1, t)) =
        (((sortValDesc (((peaksRaw S).filter (fun p => decide (p.2 = t))).map
          (fun p => (p.1, (S.getD p.1 []).getD p.2 ((0 : α) : WithBot α))))).take
            TOP_PEAKS_PER_FRAME).map Prod.fst).map (fun f => (f, t)) := by
      rw [List.map_map]
      rfl
    rw [hred]
    exact htake.map (fun a b h => by
      have := congrArg Prod.fst h
      exact this)
  · apply List.Pairwise.imp ?_ (dedupF_nodup _)
    intro t₁ t₂ hne
    intro x hx₁ hx₂
    rw [List.mem_map] at hx₁ hx₂
    obtain ⟨fa₁, _, hf₁⟩ := hx₁
    obtain ⟨fa₂, _, hf₂⟩ := hx₂
    have h1 : x.2 = t₁ := by rw [← hf₁]
    have h2 : x.2 = t₂ := by rw [← hf₂]
    exact hne (h1.symm.trans h2)

theorem local_maxima_nodup {α : Type} [LinearOrder α] [Zero α]
    (S : List (List (WithBot α))) : (local_maxima S).Nodup :=
  ((sortTimeAsc_perm (keptOf S)).nodup_iff).mpr (keptOf_nodup S)

/-- **C3**: every pair emitted by `make_hash_from_audio` with anchor
`(f1, t1)` and target `(f2, t2)` satisfies `2 ≤ t2 − t1 ≤ 64` and
`|f2 − f1| ≤ 48` (stated additively over ℕ as
`t1 + 2 ≤ t2 ∧ t2 ≤ t1 + 64`). -/
theorem emitted_pairs_in_target_zone (mags : List (List ℝ))
    (pr : (ℕ × ℕ) × (ℕ × ℕ)) (h : pr ∈ hashPairsOf mags) :
    pr.1.2 + TARGET_ZONE_T_FRAMES.1 ≤ pr.2.2 ∧
      pr.2.2 ≤ pr.1.2 + TARGET_ZONE_T_FRAMES.2 ∧
      ((pr.2.1 : ℤ) - (pr.1.1 : ℤ)).natAbs ≤ TARGET_ZONE_F_BINS :=
  mem_makePairs _ pr h

theorem peaks_of_silence_one_row :
    local_maxima (spectrogram_db (zeroMags 1 5)) = [(0, 0), (0, 1), (0, 2), (0, 3), (0, 4)] := by
  unfold spectrogram_db
  rw [amplitude_to_db_zeroMags, local_maxima_const_one_row]
  rfl

/-- C3 witness: silent audio whose spectrogram is a single all-zero
frequency row of five frames yields the anchor/target pair
`((0, 0), (0, 2))`, which satisfies the target-zone bounds. -/
theorem emitted_pairs_in_target_zone_witness :
    (((0 : ℕ), (0 : ℕ)), ((0 : ℕ), (2 : ℕ))).1.2 + TARGET_ZONE_T_FRAMES.1 ≤
        (((0 : ℕ), (0 : ℕ)), ((0 : ℕ), (2 : ℕ))).2.2 ∧
      (((0 : ℕ), (0 : ℕ)), ((0 : ℕ), (2 : ℕ))).2.2 ≤
        (((0 : ℕ), (0 : ℕ)), ((0 : ℕ), (2 : ℕ))).1.2 + TARGET_ZONE_T_FRAMES.2 ∧
      (((((0 : ℕ), (0 : ℕ)), ((0 : ℕ), (2 : ℕ))).2.1 : ℤ) -
        ((((0 : ℕ), (0 : ℕ)), ((0 : ℕ), (2 : ℕ))).1.1 : ℤ)).natAbs ≤ TARGET_ZONE_F_BINS :=
  emitted_pairs_in_target_zone (zeroMags 1 5) (((0, 0)), ((0, 2))) (by
    unfold hashPairsOf
    rw [peaks_of_silence_one_row]
    decide)

/-- **C4**: for every audio input and every anchor peak,
`make_hash_from_audio` emits at most `HASH_FANOUT = 8` pairs anchored at
that peak (the pipeline's peak list has no duplicates, and the emission
loop stops after `HASH_FANOUT` pairs per anchor). -/
theorem fanout_at_most_eight (mags : List (List ℝ)) (a : ℕ × ℕ) :
    (hashPairsOf mags).countP (fun pr => decide (pr.1 = a)) ≤ HASH_FANOUT :=
  countP_makePairs_anchor _ (local_maxima_nodup _) a

theorem local_maxima_const_ne_nil {α : Type} [LinearOrder α] [Zero α] (m n : ℕ)
    (hm : 1 ≤ m) (hn : 1 ≤ n) :
    local_maxima (List.replicate m (List.replicate n ((0 : α) : WithBot α))) ≠ [] := by
  have hpeak : ((0 : ℕ), (0 : ℕ)) ∈
      peaksRaw (List.replicate m (List.replicate n ((0 : α) : WithBot α))) := by
    rw [peaksRaw_const]
    rw [List.mem_flatMap]
    exact ⟨0, List.mem_range.mpr (by omega),
      List.mem_map.mpr ⟨0, List.mem_range.mpr (by omega), rfl⟩⟩
  have hgroups : groupsOf (List.replicate m (List.replicate n ((0 : α) : WithBot α))) ≠ [] := by
    unfold groupsOf
    exact foldl_addG_ne_nil _ _ _ [] (Or.inr (List.ne_nil_of_mem hpeak))
  have harrs : ∀ e ∈ groupsOf (List.replicate m (List.replicate n ((0 : α) : WithBot α))),
      e.2 ≠ [] := by
    unfold groupsOf
    exact foldl_addG_snd_ne_nil _ _ _ [] (by simp)
  have hkept : keptOf (List.replicate m (List.replicate n ((0 : α) : WithBot α))) ≠ [] := by
    unfold keptOf
    cases hg : groupsOf (List.replicate m (List.replicate n ((0 : α) : WithBot α))) with
    | nil => exact absurd hg hgroups
    | cons g0 rest =>
      rw [List.flatMap_cons]
      intro hc
      rcases List.append_eq_nil.mp hc with ⟨h1, _⟩
      rw [List.map_eq_nil_iff] at h1
      have harr : g0.2 ≠ [] := harrs g0 (by rw [hg]; simp)
      have hsv : sortValDesc g0.2 ≠ [] := by
        intro hc2
        have := (sortValDesc_perm g0.2).length_eq
        rw [hc2] at this
        simp at this
        exact harr (List.eq_nil_of_length_eq_zero this.symm)
      rw [List.take_eq_nil_iff] at h1
      rcases h1 with h1 | h1
      · exact absurd h1 (by decide)
      · exact hsv h1
  intro hc
  have := (sortTimeAsc_perm (keptOf
    (List.replicate m (List.replicate n ((0 : α) : WithBot α))))).length_eq
  rw [show sortTimeAsc (keptOf (List.replicate m (List.replicate n
    ((0 : α) : WithBot α)))) = local_maxima (List.replicate m (List.replicate n
      ((0 : α) : WithBot α))) from rfl, hc] at this
  simp at this
  exact hkept (List.eq_nil_of_length_eq_zero this.symm)

/-- **C5 (code evaluation at the failing input)**: for entirely silent
audio (all-zero STFT magnitudes, here 1025 frequency bins × 5 frames, the
spectrogram shape of 2048 zero samples), the peak pipeline returns a
*non-empty* peak list: `amplitude_to_db` clamps at `amin = 1e-5` and
`top_db = 80`, so silence becomes an all-`0 dB` matrix, never `−∞`, every
cell ties the 16×16 maximum filter, and the `−∞`-background erosion removes
nothing. -/
theorem silent_audio_yields_peaks :
    local_maxima (spectrogram_db (zeroMags 1025 5)) ≠ [] := by
  unfold spectrogram_db
  rw [amplitude_to_db_zeroMags]
  exact local_maxima_const_ne_nil 1025 5 (by omega) (by omega)

/-! ## C2: the dB spectrogram's range -/

/-- **C2 (amended)**: every cell of `amplitude_to_db(mags, ref=np.max)`
lies in `[−80, 0]` dB — in particular a cell whose magnitude is `≤ 0`
holds the finite `top_db` floor, never `−∞` (librosa clamps at
`amin = 1e-5` before taking the log and floors at `max dB − 80`). -/
theorem amplitude_to_db_bounds (mags : List (List ℝ)) (i j : ℕ)
    (hpos : ∀ row ∈ mags, ∀ m ∈ row, 0 ≤ m)
    (hne : ∃ row ∈ mags, row ≠ [])
    (hi : i < (amplitude_to_db mags).length)
    (hj : j < ((amplitude_to_db mags).getD i []).length) :
    (((-80 : ℝ) : WithBot ℝ) ≤ ((amplitude_to_db mags).getD i []).getD j ⊥ ∧
      ((amplitude_to_db mags).getD i []).getD j ⊥ ≤ ((0 : ℝ) : WithBot ℝ)) ∧
      ((amplitude_to_db mags).getD i []).getD j ⊥ ≠ ⊥ := by
  have hprele : ∀ prow ∈ preDb mags, ∀ x ∈ prow, x ≤ 0 := by
    intro prow hprow x hx
    unfold preDb at hprow
    rw [List.mem_map] at hprow
    obtain ⟨row, hrow, hmap⟩ := hprow
    rw [← hmap, List.mem_map] at hx
    obtain ⟨mm, hm, hval⟩ := hx
    rw [← hval]
    apply dbOfPow_nonpos
    have h0 : 0 ≤ mm := hpos row hrow mm hm
    have hle : mm ≤ listMaxR mags.flatten :=
      listMaxR_ge _ mm (List.mem_flatten.mpr ⟨row, hrow, hm⟩)
    exact pow_le_pow_left₀ h0 hle 2
  have hmaxle : listMaxR (preDb mags).flatten ≤ 0 := by
    by_cases hpf : (preDb mags).flatten = []
    · rw [hpf]; norm_num [listMaxR]
    · have hmem := listMaxR_mem _ hpf
      rw [List.mem_flatten] at hmem
      obtain ⟨prow, hprow, hx⟩ := hmem
      exact hprele prow hprow _ hx
  have hmaxge : 0 ≤ listMaxR (preDb mags).flatten := by
    obtain ⟨row, hrow, hrne⟩ := hne
    have hfne : mags.flatten ≠ [] := by
      obtain ⟨x, hx⟩ := List.exists_mem_of_ne_nil row hrne
      exact List.ne_nil_of_mem (List.mem_flatten.mpr ⟨row, hrow, hx⟩)
    have href := listMaxR_mem _ hfne
    rw [List.mem_flatten] at href
    obtain ⟨row₀, hrow₀, hrefmem⟩ := href
    have hzero : (0 : ℝ) ∈ (preDb mags).flatten := by
      rw [List.mem_flatten]
      refine ⟨row₀.map (fun m => dbOfPow (m ^ 2) (listMaxR mags.flatten ^ 2)), ?_, ?_⟩
      · unfold preDb
        exact List.mem_map_of_mem _ hrow₀
      · rw [List.mem_map]
        exact ⟨listMaxR mags.flatten, hrefmem, dbOfPow_self _⟩
    exact listMaxR_ge _ 0 hzero
  have hamp : amplitude_to_db mags = (preDb mags).map
      (fun row => row.map
        (fun x => ((max x (listMaxR (preDb mags).flatten - 80) : ℝ) : WithBot ℝ))) := rfl
  have hrowmem : (amplitude_to_db mags).getD i [] ∈ amplitude_to_db mags := by
    rw [List.getD_eq_getElem _ _ hi]
    exact List.getElem_mem hi
  have hcellmem : ((amplitude_to_db mags).getD i []).getD j ⊥ ∈
      (amplitude_to_db mags).getD i [] := by
    rw [List.getD_eq_getElem _ _ hj]
    exact List.getElem_mem hj
  rw [hamp, List.mem_map] at hrowmem
  obtain ⟨prow, hprow, hmap⟩ := hrowmem
  replace hmap : prow.map
      (fun x => ((max x (listMaxR (preDb mags).flatten - 80) : ℝ) : WithBot ℝ)) =
      (amplitude_to_db mags).getD i [] := by
    rw [hamp]
    exact hmap
  rw [← hmap, List.mem_map] at hcellmem
  obtain ⟨x, hx, hval⟩ := hcellmem
  have hx0 : x ≤ 0 := hprele prow hprow x hx
  rw [← hmap, ← hval]
  refine ⟨⟨?_, ?_⟩, WithBot.coe_ne_bot⟩
  · rw [WithBot.coe_le_coe]
    have : (-80 : ℝ) ≤ listMaxR (preDb mags).flatten - 80 := by linarith
    exact le_trans this (le_max_right _ _)
  · rw [WithBot.coe_le_coe]
    apply max_le hx0
    linarith

/-- **C2 (counterexample)**: for the magnitude matrix `[[1, 0]]`, the cell
of magnitude `0 ≤ 0` holds a finite coerced real (the `−80` dB floor), not
`−∞`: `amplitude_to_db` never produces `⊥`. -/
theorem zero_magnitude_cell_not_neg_infinity :
    ((amplitude_to_db [[(1 : ℝ), 0]]).getD 0 []).getD 1 ⊥ ≠ ⊥ := by
  unfold amplitude_to_db preDb
  simp only [List.map_cons, List.map_nil, List.getD_cons_zero, List.getD_cons_succ]
  exact WithBot.coe_ne_bot

/-- C2 witness: the bounds theorem applied to the matrix `[[1, 0]]` at the
zero-magnitude cell `(0, 1)`. -/
theorem amplitude_to_db_bounds_witness :
    (((-80 : ℝ) : WithBot ℝ) ≤ ((amplitude_to_db [[(1 : ℝ), 0]]).getD 0 []).getD 1 ⊥ ∧
      ((amplitude_to_db [[(1 : ℝ), 0]]).getD 0 []).getD 1 ⊥ ≤ ((0 : ℝ) : WithBot ℝ)) ∧
      ((amplitude_to_db [[(1 : ℝ), 0]]).getD 0 []).getD 1 ⊥ ≠ ⊥ :=
  amplitude_to_db_bounds [[(1 : ℝ), 0]] 0 1
    (by
      intro row hrow m hm
      simp only [List.mem_cons, List.not_mem_nil, or_false] at hrow
      subst hrow
      simp only [List.mem_cons, List.not_mem_nil, or_false] at hm
      rcases hm with h | h <;> rw [h] <;> norm_num)
    ⟨[(1 : ℝ), 0], by simp, by simp⟩
    (by unfold amplitude_to_db preDb; simp)
    (by unfold amplitude_to_db preDb; simp)

/-! ## C6: the two matchers' vote streams

`match_snippet` iterates query pairs then postings; `match_hashes_sqlite`
iterates distinct keys, then rows, then that key's query times.  The two
increment streams are multiset-equal and list the songs in the same
first-occurrence order, which makes every ranking quantity except the
tie-broken `best_delta` agree. -/

theorem count_rows_snoc (rows : List (ℤ × ℤ)) (ts : List ℤ) (b : ℤ) (x : ℤ × ℤ) :
    (rows.flatMap (fun q => (ts ++ [b]).map (fun tq => (q.1, q.2 - tq)))).count x =
    (rows.flatMap (fun q => ts.map (fun tq => (q.1, q.2 - tq)))).count x +
    (rows.map (fun q => (q.1, q.2 - b))).count x := by
  induction rows with
  | nil => rfl
  | cons r rest ih =>
    simp only [List.map_append, List.map_cons, List.map_nil] at ih ⊢
    simp only [List.flatMap_cons, List.count_append, List.count_cons, List.count_nil, ih]
    omega

theorem count_addG_flatMap {K : Type} [DecidableEq K] (tbl : List (K × ℤ × ℤ)) :
    ∀ (G : List (K × List ℤ)) (k : K) (b : ℤ) (x : ℤ × ℤ),
      ((addG G k b).flatMap (fun g => (rowsFor tbl g.1).flatMap
          (fun q => g.2.map (fun tq => (q.1, q.2 - tq))))).count x =
      (G.flatMap (fun g => (rowsFor tbl g.1).flatMap
          (fun q => g.2.map (fun tq => (q.1, q.2 - tq))))).count x +
      ((rowsFor tbl k).map (fun q => (q.1, q.2 - b))).count x
  | [], k, b, x => by
    rw [addG]
    simp only [List.flatMap_cons, List.flatMap_nil, List.append_nil, List.count_nil,
      List.map_cons, List.map_nil]
    rw [flatMap_single, Nat.zero_add]
  | e :: rest, k, b, x => by
    rw [addG]
    by_cases he : e.1 = k
    · rw [if_pos he, List.flatMap_cons, List.flatMap_cons, List.count_append,
        List.count_append]
      dsimp only
      rw [he, count_rows_snoc]
      omega
    · rw [if_neg he, List.flatMap_cons, List.flatMap_cons, List.count_append,
        List.count_append, count_addG_flatMap tbl rest k b x]
      omega

theorem stream_counts_eq {K : Type} [DecidableEq K] (idx : List (K × List (ℤ × ℤ)))
    (tbl : List (K × ℤ × ℤ)) :
    ∀ (hs : List (K × ℤ)),
      (∀ h ∈ hs.map Prod.fst, rowsFor tbl h = lookupIdx idx h) →
      ∀ x : ℤ × ℤ, (snipStream hs idx).count x = (sqlStream hs tbl).count x := by
  intro hs
  induction hs using List.reverseRecOn with
  | nil => intro _ x; rfl
  | append_singleton xs p ih =>
    intro hcons x
    have hsn : snipStream (xs ++ [p]) idx = snipStream xs idx ++
        (lookupIdx idx p.1).map (fun q => (q.1, q.2 - p.2)) := by
      unfold snipStream
      rw [List.flatMap_append]
      congr 1
      rw [List.flatMap_cons, List.flatMap_nil, List.append_nil]
    have hgq : groupQ (xs ++ [p]) = addG (groupQ xs) p.1 p.2 := by
      unfold groupQ
      rw [List.foldl_append]
      rfl
    rw [hsn, List.count_append, ih (fun h hh => hcons h (by simp [hh])) x]
    unfold sqlStream
    rw [hgq, count_addG_flatMap tbl (groupQ xs) p.1 p.2 x,
      hcons p.1 (by simp)]

theorem dedupF_flatMap_const {α β γ : Type} [DecidableEq β] (f : α → β) (ts : List γ)
    (hts : ts ≠ []) :
    ∀ l : List α, dedupF (l.flatMap (fun a => ts.map (fun _ => f a))) = dedupF (l.map f) := by
  intro l
  induction l with
  | nil => rfl
  | cons a r ih =>
    obtain ⟨t, ts', rfl⟩ : ∃ t ts', ts = t :: ts' := by
      cases ts with
      | nil => exact absurd rfl hts
      | cons t ts' => exact ⟨t, ts', rfl⟩
    rw [List.flatMap_cons, List.map_cons, List.map_cons, List.cons_append,
      dedupF, dedupF]
    congr 1
    rw [List.filter_append]
    have hnil : (ts'.map (fun _ => f a)).filter (fun y => decide (y ≠ f a)) = [] := by
      rw [List.filter_map]
      have : ts'.filter ((fun y => decide (y ≠ f a)) ∘ (fun _ => f a)) =
          ts'.filter (fun _ => false) := List.filter_congr (by intro x hx; simp)
    
      rw [this, List.filter_false, List.map_nil]
    rw [hnil, List.nil_append, dedupF_filter, ih, ← dedupF_filter]

theorem dedupF_flatMap_congr {α β : Type} [DecidableEq β] (g1 g2 : α → List β) :
    ∀ L : List α, (∀ a ∈ L, dedupF (g1 a) = dedupF (g2 a)) →
      dedupF (L.flatMap g1) = dedupF (L.flatMap g2) := by
  intro L
  induction L with
  | nil => intro _; rfl
  | cons a r ih =>
    intro h
    rw [List.flatMap_cons, List.flatMap_cons, dedupF_append, dedupF_append,
      h a (List.mem_cons_self a r), ih (fun b hb => h b (List.mem_cons_of_mem a hb))]
    congr 1
    refine List.filter_congr ?_
    intro b _
    have : b ∈ g1 a ↔ b ∈ g2 a := by
      rw [← mem_dedupF, ← mem_dedupF (g2 a), h a (List.mem_cons_self a r)]
    simp only [decide_eq_decide]
    exact not_congr this

theorem dedupF_flatMap_filter_aux {α β : Type} [DecidableEq α] [DecidableEq β]
    (f : α → List β) (x : α) :
    ∀ (l : List α) (P : β → Bool), (∀ a ∈ f x, P a = false) →
      (dedupF ((l.filter (fun y => decide (y ≠ x))).flatMap f)).filter P =
      (dedupF (l.flatMap f)).filter P := by
  intro l
  induction l with
  | nil => intro P _; rfl
  | cons y r ih =>
    intro P hP
    by_cases hyx : y = x
    · subst hyx
      rw [List.filter_cons_of_neg (by simp), ih P hP, List.flatMap_cons,
        dedupF_append, List.filter_append]
      have h1 : (dedupF (f y)).filter P = (dedupF (f y)).filter (fun _ => false) :=
        List.filter_congr (fun b hb => hP b ((mem_dedupF _ _).mp hb))
      rw [h1, List.filter_false, List.nil_append, List.filter_filter]
      refine (List.filter_congr ?_).symm
      intro b _
      by_cases hPb : P b = true
      · have hbfy : b ∉ f y := fun hmem => by simp [hP b hmem] at hPb
        simp [hPb, hbfy]
      · simp only [Bool.not_eq_true] at hPb
        simp [hPb]
    · rw [List.filter_cons_of_pos (by simpa using hyx), List.flatMap_cons,
        List.flatMap_cons, dedupF_append, dedupF_append, List.filter_append,
        List.filter_append]
      congr 1
      rw [List.filter_filter, List.filter_filter]
      exact ih _ (fun a ha => by simp [hP a ha])

theorem dedupF_flatMap_dedupF {α β : Type} [DecidableEq α] [DecidableEq β]
    (f : α → List β) (l : List α) :
    dedupF ((dedupF l).flatMap f) = dedupF (l.flatMap f) := by
  induction l using dedupF.induct with
  | case1 => simp [dedupF]
  | case2 x xs ih =>
    rw [dedupF, List.flatMap_cons, List.flatMap_cons, dedupF_append, dedupF_append, ih]
    congr 1
    exact dedupF_flatMap_filter_aux f x xs (fun b => decide (b ∉ f x))
      (fun a ha => by simp [ha])

theorem snip_songs_eq {K : Type} [DecidableEq K] (hs : List (K × ℤ))
    (idx : List (K × List (ℤ × ℤ))) :
    (snipStream hs idx).map Prod.fst =
    (hs.map Prod.fst).flatMap (fun k => (lookupIdx idx k).map Prod.fst) := by
  unfold snipStream
  simp only [List.map_flatMap, List.flatMap_map, List.map_map]
  rfl

theorem sql_songs_eq {K : Type} [DecidableEq K] (hs : List (K × ℤ))
    (tbl : List (K × ℤ × ℤ)) :
    (sqlStream hs tbl).map Prod.fst =
    (dedupF (hs.map Prod.fst)).flatMap (fun k =>
      (rowsFor tbl k).flatMap (fun q =>
        ((hs.filter (fun p => decide (p.1 = k))).map Prod.snd).map
          (fun _ => Prod.fst q))) := by
  unfold sqlStream
  rw [groupQ_closed]
  simp only [List.map_flatMap, List.flatMap_map, List.map_map]
  rfl

theorem songs_order_eq {K : Type} [DecidableEq K] (hs : List (K × ℤ))
    (idx : List (K × List (ℤ × ℤ))) (tbl : List (K × ℤ × ℤ))
    (hcons : ∀ h ∈ hs.map Prod.fst, rowsFor tbl h = lookupIdx idx h) :
    dedupF ((snipStream hs idx).map Prod.fst) =
    dedupF ((sqlStream hs tbl).map Prod.fst) := by
  rw [snip_songs_eq, sql_songs_eq,
    ← dedupF_flatMap_dedupF (fun k => (lookupIdx idx k).map Prod.fst) (hs.map Prod.fst)]
  refine dedupF_flatMap_congr _ _ _ ?_
  intro k hk
  have hkm : k ∈ hs.map Prod.fst := (mem_dedupF _ _).mp hk
  obtain ⟨p, hp, hpk⟩ := List.mem_map.mp hkm
  have hpf : p ∈ hs.filter (fun r => decide (r.1 = k)) :=
    List.mem_filter.mpr ⟨hp, by simp [hpk]⟩
  have hne : (hs.filter (fun r => decide (r.1 = k))).map Prod.snd ≠ [] :=
    List.ne_nil_of_mem (List.mem_map_of_mem Prod.snd hpf)
  rw [dedupF_flatMap_const Prod.fst _ hne, hcons k hkm]

theorem mem_iff_filter_length {α : Type} [DecidableEq α] (ds : List α) (a : α) :
    a ∈ ds ↔ (ds.filter (fun y => decide (y = a))).length ≠ 0 := by
  induction ds with
  | nil => simp
  | cons x r ih =>
    by_cases hx : x = a
    · subst hx
      rw [List.filter_cons_of_pos (by simp)]
      simp
    · rw [List.filter_cons_of_neg (by simp [hx]), List.mem_cons, ← ih]
      simp [Ne.symm hx]

theorem perm_of_nodup_mem_iff {α : Type} [DecidableEq α] (l1 l2 : List α)
    (h1 : l1.Nodup) (h2 : l2.Nodup) (hm : ∀ a, a ∈ l1 ↔ a ∈ l2) : l1.Perm l2 := by
  rw [List.perm_iff_count]
  intro a
  by_cases ha : a ∈ l1
  · rw [List.count_eq_one_of_mem h1 ha, List.count_eq_one_of_mem h2 ((hm a).mp ha)]
  · rw [List.count_eq_zero_of_not_mem ha,
      List.count_eq_zero_of_not_mem (fun hc => ha ((hm a).mpr hc))]

theorem filter_snd_length (S : List (ℤ × ℤ)) (s d : ℤ) :
    (((S.filter (fun p => decide (p.1 = s))).map Prod.snd).filter
      (fun x => decide (x = d))).length = S.count (s, d) := by
  rw [List.filter_map, List.length_map, List.filter_filter, List.count,
    List.countP_eq_length_filter]
  congr 1
  refine List.filter_congr ?_
  intro p _
  by_cases h1 : p.1 = s <;> by_cases h2 : p.2 = d <;> simp [Prod.ext_iff, h1, h2]

theorem foldl_pick_snd (xs : List (ℤ × ℕ)) :
    ∀ b : ℤ × ℕ, (xs.foldl (fun b p => if b.2 < p.2 then p else b) b).2 =
      (xs.map Prod.snd).foldl max b.2 := by
  induction xs with
  | nil => intro b; rfl
  | cons p r ih =>
    intro b
    rw [List.foldl_cons, List.map_cons, List.foldl_cons, ih]
    congr 1
    by_cases h : b.2 < p.2
    · rw [if_pos h]
      exact (Nat.max_eq_right (Nat.le_of_lt h)).symm
    · rw [if_neg h]
      exact (Nat.max_eq_left (Nat.le_of_not_lt h)).symm

theorem maxPair_snd (l : List (ℤ × ℕ)) :
    (maxPair l).2 = (l.map Prod.snd).foldl max 0 := by
  cases l with
  | nil => rfl
  | cons x xs =>
    rw [maxPair, foldl_pick_snd, List.map_cons, List.foldl_cons, Nat.zero_max]

theorem maxPair_snd_perm (l1 l2 : List (ℤ × ℕ)) (p : l1.Perm l2) :
    (maxPair l1).2 = (maxPair l2).2 := by
  rw [maxPair_snd, maxPair_snd]
  exact (p.map Prod.snd).foldl_eq'
    (fun x _ y _ z => by rw [max_assoc, max_comm x y, ← max_assoc]) 0

theorem totalOf_perm (l1 l2 : List (ℤ × ℕ)) (p : l1.Perm l2) :
    totalOf l1 = totalOf l2 := by
  unfold totalOf
  exact (p.map _).sum_eq

theorem deltaMap_perm (S1 S2 : List (ℤ × ℤ))
    (hcnt : ∀ x, S1.count x = S2.count x) (s : ℤ) :
    List.Perm (((S1.filter (fun p => decide (p.1 = s))).map Prod.snd).foldl bumpDelta [])
      (((S2.filter (fun p => decide (p.1 = s))).map Prod.snd).foldl bumpDelta []) := by
  have hlen : ∀ d : ℤ,
      ((((S1.filter (fun p => decide (p.1 = s))).map Prod.snd)).filter
        (fun x => decide (x = d))).length =
      ((((S2.filter (fun p => decide (p.1 = s))).map Prod.snd)).filter
        (fun x => decide (x = d))).length := by
    intro d
    rw [filter_snd_length S1 s d, filter_snd_length S2 s d]
    exact hcnt (s, d)
  have hmem : ∀ d : ℤ, d ∈ (S1.filter (fun p => decide (p.1 = s))).map Prod.snd ↔
      d ∈ (S2.filter (fun p => decide (p.1 = s))).map Prod.snd := by
    intro d
    rw [mem_iff_filter_length, mem_iff_filter_length, hlen d]
  rw [foldl_bumpDelta_closed, foldl_bumpDelta_closed]
  have hperm : (dedupF ((S1.filter (fun p => decide (p.1 = s))).map Prod.snd)).Perm
      (dedupF ((S2.filter (fun p => decide (p.1 = s))).map Prod.snd)) :=
    perm_of_nodup_mem_iff _ _ (dedupF_nodup _) (dedupF_nodup _)
      (fun a => by rw [mem_dedupF, mem_dedupF]; exact hmem a)
  have hfun : (fun d : ℤ =>
      (d, (((S1.filter (fun p => decide (p.1 = s))).map Prod.snd).filter
        (fun x => decide (x = d))).length)) =
      (fun d : ℤ =>
      (d, (((S2.filter (fun p => decide (p.1 = s))).map Prod.snd).filter
        (fun x => decide (x = d))).length)) := by
    funext d
    rw [hlen d]
  rw [hfun]
  exact hperm.map _

theorem scored_proj_eq {K : Type} [DecidableEq K] (hs : List (K × ℤ))
    (idx : List (K × List (ℤ × ℤ))) (tbl : List (K × ℤ × ℤ))
    (hcons : ∀ h ∈ hs.map Prod.fst, rowsFor tbl h = lookupIdx idx h) :
    (scoredOf (buildVotes (snipStream hs idx))).map projTop =
    (scoredOf (buildVotes (sqlStream hs tbl))).map projTop := by
  have hcnt := stream_counts_eq idx tbl hs hcons
  have hks := songs_order_eq hs idx tbl hcons
  rw [buildVotes_closed, buildVotes_closed]
  unfold scoredOf
  simp only [List.map_map]
  rw [hks]
  refine List.map_congr_left ?_
  intro s _
  have hperm := deltaMap_perm _ _ hcnt s
  simp only [Function.comp, projTop]
  rw [maxPair_snd_perm _ _ hperm, totalOf_perm _ _ hperm]

theorem insertScored_proj_congr (x y : ℤ × ℕ × ℤ × ℕ) (hxy : projTop x = projTop y) :
    ∀ (l1 l2 : List (ℤ × ℕ × ℤ × ℕ)), l1.map projTop = l2.map projTop →
      (insertScored x l1).map projTop = (insertScored y l2).map projTop := by
  intro l1
  induction l1 with
  | nil =>
    intro l2 h
    cases l2 with
    | nil =>
      rw [insertScored, insertScored, List.map_cons, List.map_cons, hxy]
    | cons b s => simp at h
  | cons a r ih =>
    intro l2 h
    cases l2 with
    | nil => simp at h
    | cons b s =>
      rw [List.map_cons, List.map_cons] at h
      injection h with hab hrs
      have hx21 : x.2.1 = y.2.1 := congrArg (fun z => z.2.1) hxy
      have ha21 : a.2.1 = b.2.1 := congrArg (fun z => z.2.1) hab
      rw [insertScored, insertScored]
      by_cases hc : x.2.1 < a.2.1
      · rw [if_pos hc, if_pos (by rw [← hx21, ← ha21]; exact hc),
          List.map_cons, List.map_cons, hab, ih s hrs]
      · rw [if_neg hc, if_neg (by rw [← hx21, ← ha21]; exact hc),
          List.map_cons, List.map_cons, List.map_cons, List.map_cons, hxy, hab, hrs]

theorem sortScored_proj_congr :
    ∀ (l1 l2 : List (ℤ × ℕ × ℤ × ℕ)), l1.map projTop = l2.map projTop →
      (sortScored l1).map projTop = (sortScored l2).map projTop := by
  intro l1
  induction l1 with
  | nil =>
    intro l2 h
    cases l2 with
    | nil => rfl
    | cons b s => simp at h
  | cons a r ih =>
    intro l2 h
    cases l2 with
    | nil => simp at h
    | cons b s =>
      rw [List.map_cons, List.map_cons] at h
      injection h with hab hrs
      unfold sortScored
      rw [List.foldr_cons, List.foldr_cons]
      exact insertScored_proj_congr a b hab _ _ (ih s hrs)

/-- C6: for the same query hash list and equivalent index contents (every
queried key finds the same postings rows in the sqlite `hashes` table as in
the pickle index dict), `match_snippet` and `match_hashes_sqlite` produce the
same top-ranked song with equal vote count and total hits — the amended form
of the claim: the `best_delta` component is NOT always equal (see the
counterexample), because the two matchers visit the per-song offset votes in
different orders and Python's `max(..., key=...)` tie-breaks by first
occurrence, so `projTop` drops only that tie-broken field. -/
theorem matchers_agree_on_top_song {K : Type} [DecidableEq K] (hs : List (K × ℤ))
    (idx : List (K × List (ℤ × ℤ))) (tbl : List (K × ℤ × ℤ))
    (hcons : ∀ h ∈ hs.map Prod.fst, rowsFor tbl h = lookupIdx idx h) :
    (match_snippet hs idx).map projTop = ((sqliteScored hs tbl).take 1).map projTop := by
  by_cases hnil : hs = []
  · subst hnil
    rfl
  · unfold match_snippet sqliteScored
    rw [if_neg hnil, List.map_take, List.map_take,
      sortScored_proj_congr _ _ (scored_proj_eq hs idx tbl hcons)]

theorem matchers_agree_on_top_song_witness :
    (∀ h ∈ ([((0 : ℕ), (0 : ℤ))] : List (ℕ × ℤ)).map Prod.fst,
        rowsFor ([(0, ((7 : ℤ), (3 : ℤ)))] : List (ℕ × ℤ × ℤ)) h =
        lookupIdx ([(0, [((7 : ℤ), (3 : ℤ))])] : List (ℕ × List (ℤ × ℤ))) h) ∧
    (match_snippet [((0 : ℕ), (0 : ℤ))] [(0, [((7 : ℤ), (3 : ℤ))])]).map projTop =
      ((sqliteScored [((0 : ℕ), (0 : ℤ))] [(0, ((7 : ℤ), (3 : ℤ)))]).take 1).map projTop :=
  ⟨by decide, matchers_agree_on_top_song _ _ _ (by decide)⟩

/-- C6 counterexample: a query and two equivalent index representations (the
consistency hypothesis holds by computation) on which the two matchers return
different `best_delta` offsets for the same winning song: song 77 wins with
2 votes and 5 total hits in both, but `match_snippet` reports offset 55 while
`match_hashes_sqlite` reports offset 90, because they encounter the tied
offset votes in different orders. -/
theorem matchers_results_differ :
    (∀ h ∈ ([(0, 0), (1, 0), (0, 10), (2, 0)] : List (ℕ × ℤ)).map Prod.fst,
        rowsFor ([(0, ((77 : ℤ), (100 : ℤ))), (1, (77, 55)), (2, (77, 55)),
            (2, (77, 90))] : List (ℕ × ℤ × ℤ)) h =
        lookupIdx ([(0, [((77 : ℤ), (100 : ℤ))]), (1, [(77, 55)]),
            (2, [(77, 55), (77, 90)])] : List (ℕ × List (ℤ × ℤ))) h) ∧
    match_snippet ([(0, 0), (1, 0), (0, 10), (2, 0)] : List (ℕ × ℤ))
        [(0, [((77 : ℤ), (100 : ℤ))]), (1, [(77, 55)]), (2, [(77, 55), (77, 90)])] =
      [(77, 2, 55, 5)] ∧
    (sqliteScored ([(0, 0), (1, 0), (0, 10), (2, 0)] : List (ℕ × ℤ))
        [(0, ((77 : ℤ), (100 : ℤ))), (1, (77, 55)), (2, (77, 55)),
          (2, (77, 90))]).take 1 =
      [(77, 2, 90, 5)] := by decide
